import Mathlib

/-!
# gomarc: a reader for MARC 21 records

A shallow embedding of `gomarc.go` (package `gomarc`): the streaming reader
`Reader.Next`, the record decoder `parseRecord`, and the two accessors
`Reader.GetField` and `Reader.GetFields`.

Conventions of the embedding.

* A Go `string` and a Go `[]byte` are both a list of bytes (`Str`); a byte is
  a natural number (real inputs have every byte below 256, nothing in the
  program does arithmetic on a byte).  Every slice the program takes of a
  `[]byte` has capacity equal to its length (`make([]byte, rlen, rlen)`), so a
  slice expression is in range exactly when `0 ≤ lo ≤ hi ≤ len`.
* Go `int` is `Int`; every integer the program computes has at most five
  decimal digits, far from the 64-bit bounds.
* A function that can stop with a run-time panic (slice bounds out of range,
  index out of range, nil dereference, `make` with a negative length) returns
  `Run α`: `Run.done a` for a normal return, `Run.panic` otherwise.
* A Go result pair `(*marcRecord, error)` is a pair of options, `none` being
  `nil`.
* The underlying `io.Reader` is an in-memory byte sequence: the bytes not yet
  consumed.
* Go library calls (`fmt.Sscanf`, `io.ReadFull`, `strings.Split`,
  `strings.HasPrefix`, string comparison) are modelled from their library
  semantics, each by a definition of the same name.
-/

namespace Gomarc

/-! ## Data model -/

/-- A Go `string` or `[]byte`: a sequence of bytes, each byte a natural
number. -/
abbrev Str := List Nat

/-- The bytes of an ASCII text. -/
def bytes (s : String) : Str := s.toList.map Char.toNat

/-- Outcome of running a Go function: a normal return, or a run-time panic. -/
inductive Run (α : Type) where
  | done : α → Run α
  | panic : Run α
deriving DecidableEq, Repr

/-- The Go `error` values the package produces or passes on. -/
inductive GoError where
  /-- `invalid reading record length (err=...)`, `Next` line 52. -/
  | readLength : GoError
  /-- `invalid record length: ...`, `Next` line 60. -/
  | invalidLength : GoError
  /-- `invalid reading record contents (err=...)`, `Next` line 68. -/
  | readContents : GoError
  /-- The error of `fmt.Sscanf` passed on by `parseRecord`, line 85. -/
  | scanBase : GoError
  /-- `invalid base address in marc record`, line 88. -/
  | invalidBase : GoError
  /-- `invalid directory format in marc record`, line 93. -/
  | invalidDirectory : GoError
deriving DecidableEq, Repr

/-- Go `type marcField struct`: `indicators` and `contents`, where each
element of `contents` is one subfield, code byte first. -/
structure marcField where
  indicators : Str
  contents : List Str
deriving DecidableEq, Repr

/-- Go `map[string][]marcField` as an association list with unique keys. -/
abbrev FieldMap := List (Str × List marcField)

/-- Go `type marcRecord struct`: the `leader` and the `fields` map. -/
structure marcRecord where
  leader : Str
  fields : FieldMap
deriving DecidableEq, Repr

/-- Go `type Reader struct`: `f` is what is left of the stream, `current`
the current record (`none` is `nil`), `Err` the error slot (`none` is `nil`). -/
structure Reader where
  f : Str
  current : Option marcRecord
  Err : Option GoError
deriving DecidableEq, Repr

/-! ## Go library functions -/

/-- Map index expression `m[k]` with the comma-ok form: `none` when the key
is absent. -/
def mapGet : FieldMap → Str → Option (List marcField)
  | [], _ => none
  | (k, v) :: rest, key => if k = key then some v else mapGet rest key

/-- Map assignment `m[k] = v`. -/
def mapSet : FieldMap → Str → List marcField → FieldMap
  | [], key, v => [(key, v)]
  | (k, w) :: rest, key, v =>
    if k = key then (k, v) :: rest else (k, w) :: mapSet rest key v

/-- Go string comparison `a < b`: byte-wise lexicographic order. -/
def strLt : Str → Str → Bool
  | [], [] => false
  | [], _ :: _ => true
  | _ :: _, [] => false
  | a :: as, b :: bs =>
    if a < b then true else if b < a then false else strLt as bs

/-- Go `strings.HasPrefix(s, p)`. -/
def HasPrefix (s p : Str) : Bool := p.isPrefixOf s

/-- Go `strings.Split(s, sep)` for a one-byte separator: the segments of `s`
between the separators, one more than there are separators. -/
def Split (sep : Nat) : Str → List Str
  | [] => [[]]
  | c :: cs =>
    if c = sep then [] :: Split sep cs
    else
      match Split sep cs with
      | seg :: segs => (c :: seg) :: segs
      | [] => [[c]]

/-- Slice expression `data[lo:hi]` on a slice whose capacity is its length:
panics unless `0 ≤ lo ≤ hi ≤ len(data)`. -/
def slice (data : Str) (lo hi : Int) : Run Str :=
  if 0 ≤ lo ∧ lo ≤ hi ∧ hi ≤ (data.length : Int) then
    .done ((data.drop lo.toNat).take (hi.toNat - lo.toNat))
  else .panic

/-- Slice expression `s[1:]` on a string: panics on the empty string. -/
def sliceFrom1 (s : Str) : Run Str :=
  if 1 ≤ s.length then .done (s.drop 1) else .panic

/-- An ASCII decimal digit. -/
def isDigit (b : Nat) : Bool := decide (48 ≤ b) && decide (b ≤ 57)

/-- Number of bytes taken by the white-space rune, other than a newline, that
`s` starts with; `0` when `s` does not start with one.  The white-space runes
of package `fmt` are U+0009..U+000D, U+0020, U+0085, U+00A0, U+1680,
U+2000..U+200A, U+2028, U+2029, U+202F, U+205F and U+3000, read in UTF-8. -/
def spaceWidth : Str → Nat
  | [] => 0
  | b :: rest =>
    if b = 0x09 ∨ b = 0x0B ∨ b = 0x0C ∨ b = 0x0D ∨ b = 0x20 then 1
    else if b = 0xC2 then
      match rest with
      | c :: _ => if c = 0x85 ∨ c = 0xA0 then 2 else 0
      | [] => 0
    else if b = 0xE1 then
      match rest with
      | c :: d :: _ => if c = 0x9A ∧ d = 0x80 then 3 else 0
      | _ => 0
    else if b = 0xE2 then
      match rest with
      | c :: d :: _ =>
        if c = 0x80 ∧ ((0x80 ≤ d ∧ d ≤ 0x8A) ∨ d = 0xA8 ∨ d = 0xA9 ∨ d = 0xAF) then 3
        else if c = 0x81 ∧ d = 0x9F then 3
        else 0
      | _ => 0
    else if b = 0xE3 then
      match rest with
      | c :: d :: _ => if c = 0x80 ∧ d = 0x80 then 3 else 0
      | _ => 0
    else 0

/-- The loop of `(*ss).SkipSpace` of package `fmt` as `Sscanf` runs it
(newlines are not white space there): `none` is the error
`unexpected newline`.  The first argument bounds the number of runes
skipped; `SkipSpace` passes the length of the input. -/
def skipSpaceLoop : Nat → Str → Option Str
  | 0, s => some s
  | n + 1, s =>
    match s with
    | [] => some []
    | b :: rest =>
      if b = 0x0A then none
      else
        match spaceWidth (b :: rest) with
        | 0 => some (b :: rest)
        | k + 1 => skipSpaceLoop n (rest.drop k)

/-- Go `(*ss).SkipSpace`: drops the leading white space of the input. -/
def SkipSpace (s : Str) : Option Str := skipSpaceLoop s.length s

/-- Go `strconv.ParseInt` on a run of decimal digits: `n = n*10 + digit`. -/
def parseDigits (ds : Str) : Nat := ds.foldl (fun n d => n * 10 + (d - 48)) 0

/-- Go `fmt.Sscanf(s, "%0<width>d", &x)` for an `int` operand: `some v` when
the scan succeeds and stores `v`, `none` when it returns an error and leaves
the operand untouched.  Leading white space is skipped, then an optional sign
and at least one decimal digit are read, at most `width` runes of them, and
what follows them is ignored. -/
def Sscanf_d (width : Nat) (s : Str) : Option Int :=
  match SkipSpace s with
  | none => none
  | some t =>
    let tok := t.take width
    let neg := decide (tok.head? = some 0x2D)
    let body := if tok.head? = some 0x2D ∨ tok.head? = some 0x2B then tok.drop 1 else tok
    let ds := body.takeWhile isDigit
    if ds = [] then none
    else if neg then some (-(parseDigits ds : Int)) else some (parseDigits ds : Int)

/-- Errors of `io.ReadFull`. -/
inductive ReadErr where
  | EOF : ReadErr
  | ErrUnexpectedEOF : ReadErr
deriving DecidableEq, Repr

/-- Go `io.ReadFull(f, buf)` with `len(buf) = n` on an in-memory stream:
the bytes read, the error, and the stream that is left. -/
def ReadFull (f : Str) (n : Nat) : Str × Option ReadErr × Str :=
  if n = 0 then ([], none, f)
  else if f = [] then ([], some .EOF, [])
  else if f.length < n then (f, some .ErrUnexpectedEOF, [])
  else (f.take n, none, f.drop n)

/-! ## Record decoder -/

/-- Lines 105-130 of `parseRecord`: the field built from a directory entry
with tag `etag` and payload `edata`. -/
def decodeField (etag edata : Str) : marcField :=
  if strLt etag (bytes "010") then
    -- control field
    { indicators := [], contents := [edata] }
  else
    let subs := Split 0x1F edata
    let subs0 := subs.headD []
    let indicators :=
      match subs0.length with
      | 0 => bytes "  "
      | 1 => subs0 ++ bytes " "
      | 2 => subs0
      | _ => subs0.take 2
    -- for si, sf := range subs: skip when len(sf) == 0 || si == 0, else append
    let contents :=
      (subs.enum.foldl
        (fun acc p => if p.2.length = 0 ∨ p.1 = 0 then acc else acc ++ [p.2])
        ([] : List Str))
    { indicators := indicators, contents := contents }

/-- The `for o := 0; o < len(directory); o += 12` loop of `parseRecord`
(lines 95-132).  It is entered only when `len(directory) % 12 = 0`, so it
runs `len(directory) / 12` times, with `o = 0, 12, 24, ...`; the first
argument is the number of iterations left.  The slices of `directory` are in
range (`o + 12 ≤ len(directory)`); the slice of `data` can panic. -/
def parseLoop (data : Str) (base : Int) (directory : Str) :
    Nat → Nat → FieldMap → Run FieldMap
  | 0, _, fields => .done fields
  | n + 1, o, fields =>
    let etag := (directory.drop o).take 3
    let elen := (directory.drop (o + 3)).take 4
    let eoff := (directory.drop (o + 7)).take 5
    let entryLength : Int := (Sscanf_d 4 elen).getD 0
    let entryOffset : Int := (Sscanf_d 5 eoff).getD 0
    match slice data (base + entryOffset) (base + entryOffset + entryLength - 1) with
    | .panic => .panic
    | .done edata =>
      let fld := decodeField etag edata
      parseLoop data base directory n (o + 12)
        (mapSet fields etag ((mapGet fields etag).getD [] ++ [fld]))

/-- Go `func parseRecord(data []byte) (*marcRecord, error)`. -/
def parseRecord (data : Str) : Run (Option marcRecord × Option GoError) :=
  -- rec.leader = string(data[0:24])
  match slice data 0 24 with
  | .panic => .panic
  | .done leader =>
    match slice data 12 17 with
    | .panic => .panic
    | .done b5 =>
      match Sscanf_d 5 b5 with
      | none => .done (none, some .scanBase)
      | some base =>
        if base ≤ 0 ∨ base ≥ (data.length : Int) then .done (none, some .invalidBase)
        else
          match slice data 24 (base - 1) with
          | .panic => .panic
          | .done directory =>
            if directory.length % 12 ≠ 0 then .done (none, some .invalidDirectory)
            else
              match parseLoop data base directory (directory.length / 12) 0 [] with
              | .panic => .panic
              | .done fields => .done (some { leader := leader, fields := fields }, none)

/-! ## Stream reader -/

/-- Go `func NewReader(rio io.Reader) *Reader`. -/
def NewReader (rio : Str) : Reader := { f := rio, current := none, Err := none }

/-- Go `func (r *Reader) Next() bool`: the returned flag and the reader after
the call. -/
def Reader.Next (r : Reader) : Run (Bool × Reader) :=
  match ReadFull r.f 5 with
  | (_, some .EOF, f1) => .done (false, { r with f := f1 })
  | (_, some .ErrUnexpectedEOF, f1) =>
    .done (false, { r with f := f1, Err := some .readLength })
  | (first5, none, f1) =>
    match Sscanf_d 5 first5 with
    | none => .done (false, { r with f := f1, Err := some .invalidLength })
    | some rlen =>
      -- make([]byte, rlen, rlen) panics when rlen < 0, recordBytes[5:] when rlen < 5
      if rlen < 5 then .panic
      else
        match ReadFull f1 (rlen.toNat - 5) with
        | (_, some _, f2) => .done (false, { r with f := f2, Err := some .readContents })
        | (body, none, f2) =>
          match parseRecord (first5 ++ body) with
          | .panic => .panic
          | .done (cur, err) =>
            .done (decide (err = none), { f := f2, current := cur, Err := err })

/-! ## Field accessors -/

/-- The inner loop of `GetField` (lines 156-160) over the subfields of one
field: `some` is the `return` taken, `none` the loop running to its end. -/
def GetField.inner (subfield : Str) : List Str → Option (Run (Str × Bool))
  | [] => none
  | sf :: rest =>
    if HasPrefix sf subfield then
      some (match sliceFrom1 sf with
            | .panic => .panic
            | .done v => .done (v, true))
    else GetField.inner subfield rest

/-- The outer loop of `GetField` (lines 155-163) and the final
`return "", false`. -/
def GetField.outer (subfield : Str) : List marcField → Run (Str × Bool)
  | [] => .done ([], false)
  | fl :: rest =>
    match GetField.inner subfield fl.contents with
    | some res => res
    | none => GetField.outer subfield rest

/-- Go `func (r *Reader) GetField(tag, subfield string) (string, bool)`. -/
def Reader.GetField (r : Reader) (tag subfield : Str) : Run (Str × Bool) :=
  match r.current with
  | none => .done ([], false)
  | some cur =>
    match mapGet cur.fields tag with
    | none => .done ([], false)
    | some fld =>
      if strLt tag (bytes "010") then
        -- return fld[0].contents[0], true
        match fld with
        | [] => .panic
        | f0 :: _ =>
          match f0.contents with
          | [] => .panic
          | c0 :: _ => .done (c0, true)
      else if subfield = [] then
        -- return fld[0].contents[0][1:], true
        match fld with
        | [] => .panic
        | f0 :: _ =>
          match f0.contents with
          | [] => .panic
          | c0 :: _ =>
            match sliceFrom1 c0 with
            | .panic => .panic
            | .done v => .done (v, true)
      else GetField.outer subfield fld

/-- The inner loops of `GetFields` (lines 182-184 and 188-192) over the
subfields of one field, appending to `ret`; `all` is true in the branch
`subfield == ""`, which tests nothing. -/
def GetFields.inner (all : Bool) (subfield : Str) : List Str → List Str → Run (List Str)
  | [], ret => .done ret
  | sf :: rest, ret =>
    if all || HasPrefix sf subfield then
      match sliceFrom1 sf with
      | .panic => .panic
      | .done v => GetFields.inner all subfield rest (ret ++ [v])
    else GetFields.inner all subfield rest ret

/-- The outer loops of `GetFields` (lines 181-185 and 187-193). -/
def GetFields.outer (all : Bool) (subfield : Str) : List marcField → List Str → Run (List Str)
  | [], ret => .done ret
  | fl :: rest, ret =>
    match GetFields.inner all subfield fl.contents ret with
    | .panic => .panic
    | .done ret1 => GetFields.outer all subfield rest ret1

/-- Go `func (r *Reader) GetFields(tag, subfield string) ([]string, bool)`.
There is no `r.current == nil` test: `r.current.fields` on a nil `current`
is a nil dereference. -/
def Reader.GetFields (r : Reader) (tag subfield : Str) : Run (List Str × Bool) :=
  match r.current with
  | none => .panic
  | some cur =>
    match mapGet cur.fields tag with
    | none => .done ([], false)
    | some fld =>
      if strLt tag (bytes "010") then
        -- return fld[0].contents, true
        match fld with
        | [] => .panic
        | f0 :: _ => .done (f0.contents, true)
      else
        match GetFields.outer (decide (subfield = [])) subfield fld [] with
        | .panic => .panic
        | .done ret => .done (ret, decide (ret.length > 0))

/-! ## The directory, as the record layout describes it -/

/-- The first `n` entries of a directory, 12 bytes each, in order. -/
def dirEntries : Nat → Str → List Str
  | 0, _ => []
  | n + 1, d => d.take 12 :: dirEntries n (d.drop 12)

/-- Tag of a directory entry: its bytes `[0:3]`. -/
def entryTag (e : Str) : Str := e.take 3

/-- Length field of a directory entry: its bytes `[3:7]` scanned with
`%04d`, `0` when the scan fails. -/
def entryLength (e : Str) : Int := (Sscanf_d 4 ((e.drop 3).take 4)).getD 0

/-- Offset field of a directory entry: its bytes `[7:12]` scanned with
`%05d`, `0` when the scan fails. -/
def entryOffset (e : Str) : Int := (Sscanf_d 5 ((e.drop 7).take 5)).getD 0

/-- The span `[lo, hi)` of the payload of entry `e` is a span of `data`:
`0 ≤ lo ≤ hi ≤ len(data)` for `lo = base + offset`, `hi = lo + length - 1`. -/
def entrySpanOK (data : Str) (base : Int) (e : Str) : Prop :=
  0 ≤ base + entryOffset e ∧
  base + entryOffset e ≤ base + entryOffset e + entryLength e - 1 ∧
  base + entryOffset e + entryLength e - 1 ≤ (data.length : Int)

/-- The payload `data[base+offset : base+offset+length-1]` of entry `e`. -/
def entryPayload (data : Str) (base : Int) (e : Str) : Str :=
  (data.drop (base + entryOffset e).toNat).take
    ((base + entryOffset e + entryLength e - 1).toNat - (base + entryOffset e).toNat)

/-- The field decoded from entry `e`. -/
def entryField (data : Str) (base : Int) (e : Str) : marcField :=
  decodeField (entryTag e) (entryPayload data base e)

/-- What `parseRecord` guarantees of a field stored under tag `T`: it is the
decoding of some payload under that tag. -/
def FieldsOK (fields : FieldMap) : Prop :=
  ∀ T fld, mapGet fields T = some fld → fld ≠ [] ∧ ∀ fl ∈ fld, ∃ p, fl = decodeField T p

/-- The directory of a record with base address `b`: `data[24 : b-1]`. -/
def directoryOf (data : Str) (b : Int) : Str := (data.drop 24).take (b.toNat - 1 - 24)

/-- The directory entries of a record with base address `b`, in order. -/
def entriesOf (data : Str) (b : Int) : List Str :=
  dirEntries ((directoryOf data b).length / 12) (directoryOf data b)

/-! ## Sample data -/

/-- A 77-byte record: control field "001" = "rec001" and data field "650"
with indicators "  " and subfields "aTopicA", "xGeneral". -/
def sampleRecord : Str :=
  bytes "00077nam  2200049   4500" ++
  bytes "001000700000" ++ bytes "650002000007" ++ [0x1E] ++
  bytes "rec001" ++ [0x1E] ++
  bytes "  " ++ [0x1F] ++ bytes "aTopicA" ++ [0x1F] ++ bytes "xGeneral" ++ [0x1E] ++
  [0x1D]

/-- The decoding of `sampleRecord`. -/
def sampleParsed : marcRecord :=
  { leader := bytes "00077nam  2200049   4500",
    fields :=
      [(bytes "001", [{ indicators := [], contents := [bytes "rec001"] }]),
       (bytes "650", [{ indicators := bytes "  ",
                        contents := [bytes "aTopicA", bytes "xGeneral"] }])] }

/-- A 41-byte record whose only field, tagged "650", holds the two indicator
bytes and no subfield. -/
def bareRecord : Str :=
  bytes "00041nam  2200037   4500" ++
  bytes "650000300000" ++ [0x1E] ++
  bytes "  " ++ [0x1E] ++
  [0x1D]

/-- The decoding of `bareRecord`. -/
def bareParsed : marcRecord :=
  { leader := bytes "00041nam  2200037   4500",
    fields := [(bytes "650", [{ indicators := bytes "  ", contents := [] }])] }

/-! ## Lookups, as the accessor contract describes them -/

/-- The fields stored under `tag`, in order; none when the tag is absent. -/
def fieldsUnder (rec : marcRecord) (tag : Str) : List marcField :=
  (mapGet rec.fields tag).getD []

/-- The subfields under `tag`: field order, then subfield order. -/
def subfieldsUnder (rec : marcRecord) (tag : Str) : List Str :=
  (fieldsUnder rec tag).flatMap (fun fl => fl.contents)

/-! ## Streams of records -/

/-- The number written by a run of decimal digits, most significant first. -/
def decimalValue : Str → Nat
  | [] => 0
  | d :: ds => (d - 48) * 10 ^ ds.length + decimalValue ds

/-- A well-formed MARC record as a frame of the stream: it starts with five
decimal digits, zero-padded, that write its own total length in bytes (those
five bytes included), and it decodes. -/
def WellFormedFrame (rec : Str) : Prop :=
  5 ≤ rec.length ∧ (∀ d ∈ rec.take 5, isDigit d = true) ∧
  decimalValue (rec.take 5) = rec.length ∧
  ∃ m, parseRecord rec = .done (some m, none)

/-- The first `k` successive calls of `Next`: for each call, the flag it
returned and the reader it left. -/
def callNext : Nat → Reader → Run (List (Bool × Reader))
  | 0, _ => .done []
  | k + 1, r =>
    match r.Next with
    | .panic => .panic
    | .done (flag, r1) =>
      match callNext k r1 with
      | .panic => .panic
      | .done calls => .done ((flag, r1) :: calls)

/-! ## Malformed samples -/

/-- A 24-byte record (a leader alone) whose base address field is "00000". -/
def badBaseRecord : Str := bytes "00024nam  2200000   4500"

/-- A 24-byte record (a leader alone) whose base address field is "00013":
it passes the test `0 < base < len(data)`, and `base - 1` is below 24. -/
def lowBaseRecord : Str := bytes "00024nam  2200013   4500"

/-- A 10-byte stream whose length prefix declares 10 bytes. -/
def shortStream : Str := bytes "00010abcde"

/-- The 41 bytes of `bareRecord` with the length prefix written " 0041",
padded with a space in place of a zero. -/
def spacePaddedStream : Str := bytes " 0041" ++ bareRecord.drop 5

/-- A 39-byte record whose only directory entry, tagged "650", has the
length field "0000" and the offset field "00000". -/
def zeroLengthRecord : Str :=
  bytes "00039nam  2200037   4500" ++
  bytes "650000000000" ++ [0x1E] ++
  [0x1E] ++
  [0x1D]

/-- A 59-byte record with two fields tagged "650": the first holds the two
indicator bytes and no subfield, the second holds the subfield "aX". -/
def twoFieldRecord : Str :=
  bytes "00059nam  2200049   4500" ++
  bytes "650000300000" ++ bytes "650000600003" ++ [0x1E] ++
  bytes "  " ++ [0x1E] ++
  bytes "  " ++ [0x1F] ++ bytes "aX" ++ [0x1E] ++
  [0x1D]

/-- The decoding of `twoFieldRecord`. -/
def twoFieldParsed : marcRecord :=
  { leader := bytes "00059nam  2200049   4500",
    fields :=
      [(bytes "650", [{ indicators := bytes "  ", contents := [] },
                      { indicators := bytes "  ", contents := [bytes "aX"] }])] }

/-! ## Lookups by exact subfield code -/

/-- The variant of `GetField` on a data tag that selects a subfield if and
only if its first byte, the code, equals `code`: the value of the first such
subfield under the tag, or not found. -/
def GetFieldExact (rec : marcRecord) (tag : Str) (code : Nat) : Str × Bool :=
  match (subfieldsUnder rec tag).find? (fun sf => decide (sf.head? = some code)) with
  | some sf => (sf.drop 1, true)
  | none => ([], false)

/-- The variant of `GetFields` on a data tag that selects a subfield if and
only if its first byte, the code, equals `code`: the values of all such
subfields under the tag, found when there is one. -/
def GetFieldsExact (rec : marcRecord) (tag : Str) (code : Nat) : List Str × Bool :=
  (((subfieldsUnder rec tag).filter (fun sf => decide (sf.head? = some code))).map
      (fun sf => sf.drop 1),
   decide (((subfieldsUnder rec tag).filter (fun sf => decide (sf.head? = some code))) ≠ []))

/-- The 41 bytes of `bareRecord` with the base address field written
"00036": the directory span `data[24:35]` has 11 bytes. -/
def oddDirectoryRecord : Str := bytes "00041nam  2200036   4500" ++ bareRecord.drop 24

/-- A 24-byte record (a leader alone) whose base address field is "1abcd":
one digit followed by letters. -/
def looseBaseRecord : Str := bytes "00024nam  221abcd   4500"

/-- The 41 bytes of `bareRecord` with the base address field written
"37abc": the digits of the base address 37 followed by letters. -/
def trailingBaseRecord : Str := bytes "00041nam  2237abc   4500" ++ bareRecord.drop 24

/-! ## Lemmas on the library functions -/

/-- The bound of `skipSpaceLoop` never stops the loop: two bounds that are
both at least the length of the input give the same result. -/
theorem skipSpaceLoop_bound (n : Nat) : ∀ (m : Nat) (s : Str), s.length ≤ n → s.length ≤ m →
    skipSpaceLoop n s = skipSpaceLoop m s := by
  induction n with
  | zero =>
    intro m s hs _
    have : s = [] := List.length_eq_zero.1 (Nat.le_zero.1 hs)
    subst this
    cases m <;> rfl
  | succ n ih =>
    intro m s hn hm
    cases s with
    | nil => cases m <;> rfl
    | cons b rest =>
      cases m with
      | zero => simp at hm
      | succ m =>
        have hn2 : rest.length ≤ n := by simpa using hn
        have hm2 : rest.length ≤ m := by simpa using hm
        simp only [skipSpaceLoop]
        split
        · rfl
        · split
          · rfl
          · rename_i k _
            exact ih m (rest.drop k) (by simp only [List.length_drop]; omega)
              (by simp only [List.length_drop]; omega)

/-- `SkipSpace` is the loop run with any bound that is at least the length
of the input. -/
theorem SkipSpace_eq_loop (n : Nat) (s : Str) (h : s.length ≤ n) :
    SkipSpace s = skipSpaceLoop n s :=
  skipSpaceLoop_bound s.length n s (le_refl _) h

theorem Split_ne_nil (sep : Nat) (s : Str) : Split sep s ≠ [] := by
  cases s with
  | nil => simp [Split]
  | cons c cs =>
    simp only [Split]
    split
    · simp
    · split <;> simp

theorem Split_cons_of_ne (sep c : Nat) (cs : Str) (h : c ≠ sep) :
    Split sep (c :: cs) = (c :: (Split sep cs).headD []) :: (Split sep cs).tail := by
  have hne := Split_ne_nil sep cs
  simp only [Split, if_neg h]
  cases hs : Split sep cs with
  | nil => exact absurd hs hne
  | cons seg segs => simp

theorem Split_headD (sep : Nat) (s : Str) :
    (Split sep s).headD [] = s.takeWhile (fun c => decide (c ≠ sep)) := by
  induction s with
  | nil => simp [Split]
  | cons c cs ih =>
    by_cases h : c = sep
    · simp [Split, h]
    · rw [Split_cons_of_ne sep c cs h]
      have htw : List.takeWhile (fun c => decide (c ≠ sep)) (c :: cs)
          = c :: List.takeWhile (fun c => decide (c ≠ sep)) cs := by
        simp [List.takeWhile, h]
      rw [htw, ← ih]
      rfl

theorem Split_intercalate (sep : Nat) (s : Str) :
    List.intercalate [sep] (Split sep s) = s := by
  induction s with
  | nil => simp [Split, List.intercalate]
  | cons c cs ih =>
    have hne := Split_ne_nil sep cs
    by_cases h : c = sep
    · subst h
      simp only [Split, if_true]
      cases hs : Split c cs with
      | nil => exact absurd hs hne
      | cons seg segs =>
        rw [hs] at ih
        simp [List.intercalate, List.intersperse] at ih ⊢
        exact ih
    · rw [Split_cons_of_ne sep c cs h]
      cases hs : Split sep cs with
      | nil => exact absurd hs hne
      | cons seg segs =>
        rw [hs] at ih
        cases segs with
        | nil => simpa [List.intercalate, List.intersperse] using ih
        | cons s2 segs2 => simpa [List.intercalate, List.intersperse] using ih

theorem Split_no_sep (sep : Nat) (s : Str) : ∀ seg ∈ Split sep s, sep ∉ seg := by
  induction s with
  | nil => simp [Split]
  | cons c cs ih =>
    have hne := Split_ne_nil sep cs
    by_cases h : c = sep
    · subst h
      simp only [Split, if_true]
      intro seg hseg
      rcases List.mem_cons.1 hseg with rfl | hmem
      · simp
      · exact ih seg hmem
    · rw [Split_cons_of_ne sep c cs h]
      cases hs : Split sep cs with
      | nil => exact absurd hs hne
      | cons seg0 segs =>
        rw [hs] at ih
        intro seg hseg
        simp only [List.headD_cons, List.tail_cons, List.mem_cons] at hseg
        rcases hseg with rfl | hmem
        · intro hmem
          rcases List.mem_cons.1 hmem with heq | hin
          · exact h heq.symm
          · exact ih seg0 (by simp) hin
        · exact ih seg (by simp [hmem])

/-! ## The field decoder (lines 105-130) -/

/-- The `range subs` loop with the index starting above zero keeps every
non-empty segment. -/
theorem contentsLoop_from_succ (subs : List Str) (n : Nat) (acc : List Str) :
    (subs.enumFrom (n + 1)).foldl
        (fun acc p => if p.2.length = 0 ∨ p.1 = 0 then acc else acc ++ [p.2]) acc
      = acc ++ subs.filter (fun seg => decide (seg ≠ [])) := by
  induction subs generalizing n acc with
  | nil => simp
  | cons x xs ih =>
    simp only [List.enumFrom_cons, List.foldl_cons]
    rw [ih]
    by_cases hx : x = []
    · simp [hx]
    · simp [hx, List.filter_cons]

/-- The `range subs` loop skips the first segment and the empty ones. -/
theorem contentsLoop_eq (subs : List Str) :
    subs.enum.foldl
        (fun acc p => if p.2.length = 0 ∨ p.1 = 0 then acc else acc ++ [p.2]) ([] : List Str)
      = subs.tail.filter (fun seg => decide (seg ≠ [])) := by
  cases subs with
  | nil => simp [List.enum]
  | cons x xs =>
    simp only [List.enum, List.enumFrom_cons, List.foldl_cons, or_true, if_true, List.tail_cons]
    rw [contentsLoop_from_succ]
    simp

theorem decodeField_data_contents (etag p : Str) (h : strLt etag (bytes "010") = false) :
    (decodeField etag p).contents
      = (Split 0x1F p).tail.filter (fun seg => decide (seg ≠ [])) := by
  simp only [decodeField, h]
  exact contentsLoop_eq _

theorem decodeField_data_indicators (etag p : Str) (h : strLt etag (bytes "010") = false) :
    (decodeField etag p).indicators =
      match ((Split 0x1F p).headD []).length with
      | 0 => bytes "  "
      | 1 => (Split 0x1F p).headD [] ++ bytes " "
      | 2 => (Split 0x1F p).headD []
      | _ => ((Split 0x1F p).headD []).take 2 := by
  simp only [decodeField, h]
  rfl

theorem decodeField_control_eq (etag p : Str) (h : strLt etag (bytes "010") = true) :
    decodeField etag p = { indicators := [], contents := [p] } := by
  simp [decodeField, h]

theorem strLt_tag_010 (a b c : Nat) :
    strLt [a, b, c] (bytes "010") = true ↔
      a < 48 ∨ (a = 48 ∧ (b < 49 ∨ (b = 49 ∧ c < 48))) := by
  have h010 : bytes "010" = [48, 49, 48] := by decide
  rw [h010]
  simp only [strLt]
  split_ifs <;> simp <;> omega

/-- C3: for a data field (tag not below "010") decoded from a payload `p`, the
subfield list is, in order, the segments of `p` split on the byte 0x1F that
come after the first segment and are not empty; every stored subfield is a
code byte followed by its value, so no stored subfield is empty.  The split is
pinned down by its two defining properties: joining the segments with 0x1F
gives `p` back, and no segment holds the byte 0x1F. -/
theorem decodeField_subfields (etag p : Str) (h : strLt etag (bytes "010") = false) :
    List.intercalate [0x1F] (Split 0x1F p) = p ∧
    (∀ seg ∈ Split 0x1F p, (0x1F : Nat) ∉ seg) ∧
    (decodeField etag p).contents
      = (Split 0x1F p).tail.filter (fun seg => decide (seg ≠ [])) ∧
    (∀ sf ∈ (decodeField etag p).contents, ∃ code value, sf = code :: value) ∧
    ([] : Str) ∉ (decodeField etag p).contents := by
  have hc := decodeField_data_contents etag p h
  refine ⟨Split_intercalate _ _, Split_no_sep _ _, hc, ?_, ?_⟩
  · intro sf hsf
    rw [hc] at hsf
    have hne : sf ≠ [] := by simpa using (List.mem_filter.1 hsf).2
    cases sf with
    | nil => exact absurd rfl hne
    | cons code value => exact ⟨code, value, rfl⟩
  · intro hmem
    rw [hc] at hmem
    simpa using (List.mem_filter.1 hmem).2

/-- Witness of C3: the payload `"  " 1F "aTopicA" 1F 1F "xGeneral"` of a field
tagged "650". -/
theorem decodeField_subfields_witness :
    strLt (bytes "650") (bytes "010") = false ∧
    (decodeField (bytes "650")
        (bytes "  " ++ [0x1F] ++ bytes "aTopicA" ++ [0x1F, 0x1F] ++ bytes "xGeneral")).contents
      = [bytes "aTopicA", bytes "xGeneral"] :=
  ⟨by decide,
   (decodeField_subfields (bytes "650")
      (bytes "  " ++ [0x1F] ++ bytes "aTopicA" ++ [0x1F, 0x1F] ++ bytes "xGeneral")
      (by decide)).2.2.1.trans (by decide)⟩

/-- The indicator pair of a data field, by the length of the payload part
before the first delimiter. -/
theorem decodeField_indicators_cases (etag p : Str) (h : strLt etag (bytes "010") = false) :
    (p.takeWhile (fun c => decide (c ≠ 0x1F)) = [] →
      (decodeField etag p).indicators = bytes "  ") ∧
    ((p.takeWhile (fun c => decide (c ≠ 0x1F))).length = 1 →
      (decodeField etag p).indicators = p.takeWhile (fun c => decide (c ≠ 0x1F)) ++ bytes " ") ∧
    (2 ≤ (p.takeWhile (fun c => decide (c ≠ 0x1F))).length →
      (decodeField etag p).indicators = (p.takeWhile (fun c => decide (c ≠ 0x1F))).take 2) ∧
    (decodeField etag p).indicators.length = 2 := by
  have hi := decodeField_data_indicators etag p h
  rw [Split_headD] at hi
  generalize p.takeWhile (fun c => decide (c ≠ 0x1F)) = s at hi ⊢
  have hsp : bytes "  " = [32, 32] := by decide
  have hsp1 : bytes " " = [32] := by decide
  rw [hi]
  match s with
  | [] => simp [hsp]
  | [a] => simp [hsp1]
  | [a, b] => simp
  | a :: b :: c :: rest => simp

/-- C4: for a data field (tag not below "010") decoded from a payload `p`, with
`s` the part of `p` before the first 0x1F delimiter, the indicators are two
spaces when `s` is empty, `s` followed by one space when `s` has length 1, and
the first two bytes of `s` when `s` has length at least 2; so the indicator
string always has length 2. -/
theorem decodeField_indicator_pair (etag p : Str) (h : strLt etag (bytes "010") = false) :
    (p.takeWhile (fun c => decide (c ≠ 0x1F)) = [] →
      (decodeField etag p).indicators = bytes "  ") ∧
    ((p.takeWhile (fun c => decide (c ≠ 0x1F))).length = 1 →
      (decodeField etag p).indicators = p.takeWhile (fun c => decide (c ≠ 0x1F)) ++ bytes " ") ∧
    (2 ≤ (p.takeWhile (fun c => decide (c ≠ 0x1F))).length →
      (decodeField etag p).indicators = (p.takeWhile (fun c => decide (c ≠ 0x1F))).take 2) ∧
    (decodeField etag p).indicators.length = 2 :=
  decodeField_indicators_cases etag p h

/-- Witness of C4: a payload with the single indicator byte `1`. -/
theorem decodeField_indicator_pair_witness :
    strLt (bytes "245") (bytes "010") = false ∧
    (decodeField (bytes "245") (bytes "1" ++ [0x1F] ++ bytes "aTitle")).indicators.length = 2 :=
  ⟨by decide,
   (decodeField_indicator_pair (bytes "245") (bytes "1" ++ [0x1F] ++ bytes "aTitle")
      (by decide)).2.2.2⟩

/-- C5: a directory entry whose tag is below "010" in byte-wise lexicographic
order (spelled out for a 3-byte tag in the first conjunct) gives a control
field: no indicators and one content value, the payload verbatim, 0x1F bytes
included; every other entry is decoded as a data field, with a 2-byte
indicator pair and the non-empty split segments after the first. -/
theorem decodeField_by_tag (etag p : Str) :
    (∀ a b c : Nat, strLt [a, b, c] (bytes "010") = true ↔
      a < 48 ∨ (a = 48 ∧ (b < 49 ∨ (b = 49 ∧ c < 48)))) ∧
    (strLt etag (bytes "010") = true →
      decodeField etag p = { indicators := [], contents := [p] }) ∧
    (strLt etag (bytes "010") = false →
      (decodeField etag p).indicators.length = 2 ∧
      (decodeField etag p).contents
        = (Split 0x1F p).tail.filter (fun seg => decide (seg ≠ []))) :=
  ⟨strLt_tag_010,
   decodeField_control_eq etag p,
   fun h => ⟨(decodeField_indicators_cases etag p h).2.2.2, decodeField_data_contents etag p h⟩⟩

/-- Witness of C5: a control field "008" whose payload holds a 0x1F byte. -/
theorem decodeField_by_tag_witness :
    strLt (bytes "008") (bytes "010") = true ∧
    decodeField (bytes "008") (bytes "ab" ++ [0x1F] ++ bytes "cd")
      = { indicators := [], contents := [bytes "ab" ++ [0x1F] ++ bytes "cd"] } :=
  ⟨by decide,
   (decodeField_by_tag (bytes "008") (bytes "ab" ++ [0x1F] ++ bytes "cd")).2.1 (by decide)⟩

/-! ## The field map -/

theorem mapGet_mapSet (m : FieldMap) (k k2 : Str) (v : List marcField) :
    mapGet (mapSet m k v) k2 = if k = k2 then some v else mapGet m k2 := by
  induction m with
  | nil => simp [mapSet, mapGet]
  | cons kv rest ih =>
    obtain ⟨k1, w⟩ := kv
    by_cases h1 : k1 = k
    · subst h1
      by_cases h2 : k1 = k2
      · simp [mapSet, mapGet, h2]
      · simp [mapSet, mapGet, h2]
    · by_cases h2 : k1 = k2
      · subst h2
        have h3 : ¬ k = k1 := fun h => h1 h.symm
        simp [mapSet, mapGet, h1, h3]
      · simp [mapSet, mapGet, h1, h2, ih]

/-! ## The directory loop -/

theorem slice_done (data : Str) (lo hi : Int) (h1 : 0 ≤ lo) (h2 : lo ≤ hi)
    (h3 : hi ≤ (data.length : Int)) :
    slice data lo hi = .done ((data.drop lo.toNat).take (hi.toNat - lo.toNat)) := by
  simp [slice, h1, h2, h3]

theorem slice_eq_done (data : Str) (lo hi : Int) (r : Str) (h : slice data lo hi = .done r) :
    (0 ≤ lo ∧ lo ≤ hi ∧ hi ≤ (data.length : Int)) ∧
    r = (data.drop lo.toNat).take (hi.toNat - lo.toNat) := by
  unfold slice at h
  split at h
  · rename_i hc
    refine ⟨hc, ?_⟩
    injection h with h
    exact h.symm
  · cases h

theorem entry_tag_eq (d : Str) (o : Nat) :
    (d.drop o).take 3 = entryTag ((d.drop o).take 12) := by
  simp [entryTag, List.take_take]

theorem entry_len_eq (d : Str) (o : Nat) :
    (d.drop (o + 3)).take 4 = (((d.drop o).take 12).drop 3).take 4 := by
  simp [List.drop_take, List.take_take, List.drop_drop, Nat.add_comm]

theorem entry_off_eq (d : Str) (o : Nat) :
    (d.drop (o + 7)).take 5 = (((d.drop o).take 12).drop 7).take 5 := by
  simp [List.drop_take, List.take_take, List.drop_drop, Nat.add_comm]

/-- One iteration of the directory loop, in terms of the entry at offset `o`. -/
theorem parseLoop_succ (data : Str) (base : Int) (dir : Str) (n o : Nat) (fields : FieldMap) :
    parseLoop data base dir (n + 1) o fields =
      match slice data (base + entryOffset ((dir.drop o).take 12))
          (base + entryOffset ((dir.drop o).take 12)
            + entryLength ((dir.drop o).take 12) - 1) with
      | .panic => .panic
      | .done edata =>
        parseLoop data base dir n (o + 12)
          (mapSet fields (entryTag ((dir.drop o).take 12))
            ((mapGet fields (entryTag ((dir.drop o).take 12))).getD []
              ++ [decodeField (entryTag ((dir.drop o).take 12)) edata])) := by
  simp only [parseLoop, entryLength, entryOffset, ← entry_tag_eq, ← entry_len_eq, ← entry_off_eq]

theorem FieldsOK_nil : FieldsOK [] := by
  intro T fld h
  simp [mapGet] at h

theorem FieldsOK_mapSet (fields : FieldMap) (T p : Str) (h : FieldsOK fields) :
    FieldsOK (mapSet fields T ((mapGet fields T).getD [] ++ [decodeField T p])) := by
  intro T2 fld hget
  rw [mapGet_mapSet] at hget
  by_cases hT : T = T2
  · subst hT
    simp only [if_true, Option.some.injEq] at hget
    subst hget
    refine ⟨by simp, ?_⟩
    intro fl hfl
    rcases List.mem_append.1 hfl with hold | hnew
    · cases hg : mapGet fields T with
      | none => simp [hg] at hold
      | some old =>
        rw [hg] at hold
        exact (h T old hg).2 fl (by simpa using hold)
    · exact ⟨p, by simpa using hnew⟩
  · simp only [if_neg hT] at hget
    exact h T2 fld hget

theorem dirEntries_succ_drop (n o : Nat) (dir : Str) :
    dirEntries (n + 1) (dir.drop o)
      = (dir.drop o).take 12 :: dirEntries n (dir.drop (o + 12)) := by
  simp [dirEntries, List.drop_drop, Nat.add_comm]

/-- When the directory loop returns, every payload span was in range and the
map holds, under each tag, what it held before followed by the fields of the
entries with that tag, in directory order. -/
theorem parseLoop_done (data : Str) (base : Int) (dir : Str) :
    ∀ (n o : Nat) (fields fields2 : FieldMap),
      parseLoop data base dir n o fields = .done fields2 →
      (∀ e ∈ dirEntries n (dir.drop o), entrySpanOK data base e) ∧
      (∀ T, (mapGet fields2 T).getD [] = (mapGet fields T).getD [] ++
        ((dirEntries n (dir.drop o)).filter (fun e => decide (entryTag e = T))).map
          (entryField data base)) ∧
      (∀ T, mapGet fields2 T = none ↔
        (mapGet fields T = none ∧ ∀ e ∈ dirEntries n (dir.drop o), entryTag e ≠ T)) ∧
      (FieldsOK fields → FieldsOK fields2) := by
  intro n
  induction n with
  | zero =>
    intro o fields fields2 h
    simp only [parseLoop, Run.done.injEq] at h
    subst h
    simp [dirEntries]
  | succ n ih =>
    intro o fields fields2 h
    rw [parseLoop_succ] at h
    generalize he : (dir.drop o).take 12 = e at h
    cases hs : slice data (base + entryOffset e) (base + entryOffset e + entryLength e - 1) with
    | panic => rw [hs] at h; cases h
    | done edata =>
      rw [hs] at h
      simp only at h
      obtain ⟨hspan, hedata⟩ := slice_eq_done _ _ _ _ hs
      have hpay : edata = entryPayload data base e := hedata
      obtain ⟨ih1, ih2, ih3, ih4⟩ := ih (o + 12) _ fields2 h
      rw [dirEntries_succ_drop, he]
      refine ⟨?_, ?_, ?_, ?_⟩
      · intro e2 he2
        rcases List.mem_cons.1 he2 with rfl | hmem
        · exact hspan
        · exact ih1 e2 hmem
      · intro T
        rw [ih2 T, mapGet_mapSet]
        by_cases hT : entryTag e = T
        · simp [hT, List.filter_cons, entryField, hpay]
        · simp [hT, List.filter_cons]
      · intro T
        rw [ih3 T, mapGet_mapSet]
        by_cases hT : entryTag e = T
        · simp [hT]
        · simp [hT]
      · intro hok
        exact ih4 (FieldsOK_mapSet fields (entryTag e) edata hok)

/-- When every payload span is in range, the directory loop returns. -/
theorem parseLoop_returns (data : Str) (base : Int) (dir : Str) :
    ∀ (n o : Nat) (fields : FieldMap),
      (∀ e ∈ dirEntries n (dir.drop o), entrySpanOK data base e) →
      ∃ fields2, parseLoop data base dir n o fields = .done fields2 := by
  intro n
  induction n with
  | zero =>
    intro o fields _
    exact ⟨fields, rfl⟩
  | succ n ih =>
    intro o fields hspan
    rw [dirEntries_succ_drop] at hspan
    rw [parseLoop_succ]
    obtain ⟨h1, h2, h3⟩ := hspan _ (List.mem_cons_self _ _)
    rw [slice_done _ _ _ h1 h2 h3]
    exact ih (o + 12) _ (fun e he => hspan e (List.mem_cons_of_mem _ he))

/-! ## The record decoder -/

/-- What a successful `parseRecord` went through. -/
theorem parseRecord_done (data : Str) (rec : marcRecord)
    (h : parseRecord data = .done (some rec, none)) :
    24 ≤ data.length ∧ rec.leader = data.take 24 ∧
    ∃ base : Int, Sscanf_d 5 ((data.drop 12).take 5) = some base ∧
      24 < base ∧ base < (data.length : Int) ∧
      (directoryOf data base).length % 12 = 0 ∧
      parseLoop data base (directoryOf data base) ((directoryOf data base).length / 12) 0 []
        = .done rec.fields := by
  unfold parseRecord at h
  split at h
  · cases h
  · rename_i leader hl
    obtain ⟨hlr, hleader⟩ := slice_eq_done _ _ _ _ hl
    split at h
    · cases h
    · rename_i b5 hb5
      obtain ⟨_, hb5eq⟩ := slice_eq_done _ _ _ _ hb5
      split at h
      · cases h
      · rename_i base hbase
        split at h
        · cases h
        · rename_i hrange
          split at h
          · cases h
          · rename_i directory hd
            obtain ⟨hdr, hdeq⟩ := slice_eq_done _ _ _ _ hd
            split at h
            · cases h
            · rename_i hmod
              split at h
              · cases h
              · rename_i fields hloop
                simp only [Run.done.injEq, Prod.mk.injEq, Option.some.injEq, and_true] at h
                subst h
                have hdir : directory = directoryOf data base := by
                  rw [hdeq]
                  simp only [directoryOf]
                  congr 1
                  omega
                subst hdir
                have hb5' : b5 = (data.drop 12).take 5 := by
                  rw [hb5eq]; rfl
                subst hb5'
                refine ⟨by omega, ?_, base, hbase, by omega, by omega, ?_, hloop⟩
                · simpa using hleader
                · simpa using hmod

/-- The steps of `parseRecord` before the directory loop, on a record that
passes its checks. -/
theorem parseRecord_eq_loop (data : Str) (b : Int) (hlen : 24 ≤ data.length)
    (hbase : Sscanf_d 5 ((data.drop 12).take 5) = some b)
    (hb1 : 24 < b) (hb2 : b < (data.length : Int))
    (hdir : (directoryOf data b).length % 12 = 0) :
    parseRecord data =
      match parseLoop data b (directoryOf data b) ((directoryOf data b).length / 12) 0 [] with
      | .panic => .panic
      | .done fields => .done (some { leader := data.take 24, fields := fields }, none) := by
  have h1 : slice data 0 24 = .done (data.take 24) := by
    rw [slice_done data 0 24 (by omega) (by omega) (by omega)]
    simp
  have h2 : slice data 12 17 = .done ((data.drop 12).take 5) := by
    rw [slice_done data 12 17 (by omega) (by omega) (by omega)]
    rfl
  have h3 : slice data 24 (b - 1) = .done (directoryOf data b) := by
    rw [slice_done data 24 (b - 1) (by omega) (by omega) (by omega)]
    simp only [directoryOf]
    congr 2
    omega
  have h4 : ¬ (b ≤ 0 ∨ b ≥ (data.length : Int)) := by omega
  unfold parseRecord
  simp only [h1, h2, h3, hbase, h4, if_false, hdir, ne_eq, not_true_eq_false]

/-- Every record that `parseRecord` returns keeps, under each tag, a
non-empty list of fields decoded under that tag. -/
theorem parseRecord_FieldsOK (data : Str) (rec : marcRecord)
    (h : parseRecord data = .done (some rec, none)) : FieldsOK rec.fields := by
  obtain ⟨_, _, base, _, _, _, _, hloop⟩ := parseRecord_done data rec h
  exact (parseLoop_done data base _ _ 0 [] rec.fields hloop).2.2.2 FieldsOK_nil

/-- C2: a well-formed record (at least 24 bytes; base address `b`, the
`%05d` scan of bytes `[12:17]`, with `24 < b < len(data)`; directory
`data[24:b-1]` of a length that is a multiple of 12; every entry with length
at least 1 and a payload span `[b+offset, b+offset+length-1)` inside the data)
is decoded: `parseRecord` returns a record and no error, the leader is the
first 24 bytes, and under every tag `T` the stored field list is, in directory
order, the fields decoded from the entries tagged `T`, each from the payload
`data[b+offset : b+offset+length-1]`; a tag is absent from the map exactly
when no entry carries it. -/
theorem parseRecord_wellFormed (data : Str) (b : Int) (hlen : 24 ≤ data.length)
    (hbase : Sscanf_d 5 ((data.drop 12).take 5) = some b)
    (hb1 : 24 < b) (hb2 : b < (data.length : Int))
    (hdir : (directoryOf data b).length % 12 = 0)
    (hent : ∀ e ∈ entriesOf data b,
      1 ≤ entryLength e ∧ 0 ≤ b + entryOffset e ∧
      b + entryOffset e + entryLength e - 1 ≤ (data.length : Int)) :
    ∃ rec, parseRecord data = .done (some rec, none) ∧
      rec.leader = data.take 24 ∧
      ∀ T, (mapGet rec.fields T).getD [] =
          ((entriesOf data b).filter (fun e => decide (entryTag e = T))).map
            (fun e => decodeField (entryTag e) (entryPayload data b e)) ∧
        (mapGet rec.fields T = none ↔ ∀ e ∈ entriesOf data b, entryTag e ≠ T) := by
  have hspan : ∀ e ∈ dirEntries ((directoryOf data b).length / 12)
      ((directoryOf data b).drop 0), entrySpanOK data b e := by
    intro e he
    obtain ⟨h1, h2, h3⟩ := hent e (by simpa [entriesOf] using he)
    exact ⟨h2, by omega, h3⟩
  obtain ⟨fields, hloop⟩ := parseLoop_returns data b (directoryOf data b) _ 0 [] hspan
  obtain ⟨_, hget, hnone, _⟩ := parseLoop_done data b _ _ 0 [] fields hloop
  refine ⟨{ leader := data.take 24, fields := fields }, ?_, rfl, ?_⟩
  · rw [parseRecord_eq_loop data b hlen hbase hb1 hb2 hdir, hloop]
  · intro T
    refine ⟨?_, ?_⟩
    · have := hget T
      simpa [entriesOf, mapGet, entryField] using this
    · have := hnone T
      simpa [entriesOf, mapGet] using this

set_option maxRecDepth 100000 in
/-- Witness of C2: the sample record, base address 49, two entries. -/
theorem parseRecord_wellFormed_witness :
    ∃ rec, parseRecord sampleRecord = .done (some rec, none) ∧
      rec.leader = sampleRecord.take 24 ∧
      ∀ T, (mapGet rec.fields T).getD [] =
          ((entriesOf sampleRecord 49).filter (fun e => decide (entryTag e = T))).map
            (fun e => decodeField (entryTag e) (entryPayload sampleRecord 49 e)) ∧
        (mapGet rec.fields T = none ↔ ∀ e ∈ entriesOf sampleRecord 49, entryTag e ≠ T) :=
  parseRecord_wellFormed sampleRecord 49 (by decide) (by decide) (by decide) (by decide)
    (by decide) (by decide)

/-! ## The accessors -/

theorem HasPrefix_nil (sf : Str) : HasPrefix sf [] = true := by
  cases sf <;> simp [HasPrefix, List.isPrefixOf]

theorem ne_nil_of_HasPrefix (sf subfield : Str) (hsub : subfield ≠ [])
    (h : HasPrefix sf subfield = true) : sf ≠ [] := by
  intro hsf
  subst hsf
  cases subfield with
  | nil => exact hsub rfl
  | cons a as => simp [HasPrefix, List.isPrefixOf] at h

theorem sliceFrom1_of_ne_nil (sf : Str) (h : sf ≠ []) : sliceFrom1 sf = .done (sf.drop 1) := by
  cases sf with
  | nil => exact absurd rfl h
  | cons a as => simp [sliceFrom1]

theorem GetField_inner_eq (subfield : Str) (hsub : subfield ≠ []) (l : List Str) :
    GetField.inner subfield l =
      (l.find? (fun sf => HasPrefix sf subfield)).map (fun sf => Run.done (sf.drop 1, true)) := by
  induction l with
  | nil => simp [GetField.inner]
  | cons sf rest ih =>
    by_cases h : HasPrefix sf subfield = true
    · have hne := ne_nil_of_HasPrefix sf subfield hsub h
      simp [GetField.inner, h, List.find?_cons, sliceFrom1_of_ne_nil sf hne]
    · simp [GetField.inner, h, List.find?_cons, ih]

theorem GetField_outer_eq (subfield : Str) (hsub : subfield ≠ []) (fld : List marcField) :
    GetField.outer subfield fld =
      match (fld.flatMap (fun fl => fl.contents)).find? (fun sf => HasPrefix sf subfield) with
      | some sf => .done (sf.drop 1, true)
      | none => .done ([], false) := by
  induction fld with
  | nil => simp [GetField.outer]
  | cons fl rest ih =>
    simp only [GetField.outer, GetField_inner_eq subfield hsub, List.flatMap_cons,
      List.find?_append]
    cases hf : fl.contents.find? (fun sf => HasPrefix sf subfield) with
    | none => simp [ih]
    | some sf => simp

theorem GetFields_inner_eq (all : Bool) (subfield : Str) (l : List Str)
    (hne : ∀ sf ∈ l, sf ≠ []) (ret : List Str) :
    GetFields.inner all subfield l ret =
      .done (ret ++ (l.filter (fun sf => all || HasPrefix sf subfield)).map (fun sf => sf.drop 1)) := by
  induction l generalizing ret with
  | nil => simp [GetFields.inner]
  | cons sf rest ih =>
    have hsf : sf ≠ [] := hne sf (List.mem_cons_self _ _)
    have hrest : ∀ s ∈ rest, s ≠ [] := fun s hs => hne s (List.mem_cons_of_mem _ hs)
    by_cases h : (all || HasPrefix sf subfield) = true
    · simp only [GetFields.inner, h, if_true, sliceFrom1_of_ne_nil sf hsf, ih hrest,
        List.filter_cons, List.map_cons, List.append_assoc, List.singleton_append]
    · simp only [GetFields.inner, h, ih hrest, List.filter_cons]
      simp

theorem GetFields_outer_eq (all : Bool) (subfield : Str) (fld : List marcField)
    (hne : ∀ fl ∈ fld, ∀ sf ∈ fl.contents, sf ≠ []) (ret : List Str) :
    GetFields.outer all subfield fld ret =
      .done (ret ++ ((fld.flatMap (fun fl => fl.contents)).filter
        (fun sf => all || HasPrefix sf subfield)).map (fun sf => sf.drop 1)) := by
  induction fld generalizing ret with
  | nil => simp [GetFields.outer]
  | cons fl rest ih =>
    have h1 := hne fl (List.mem_cons_self _ _)
    have hrest : ∀ f ∈ rest, ∀ sf ∈ f.contents, sf ≠ [] :=
      fun f hf => hne f (List.mem_cons_of_mem _ hf)
    simp only [GetFields.outer, GetFields_inner_eq all subfield fl.contents h1, ih hrest,
      List.flatMap_cons, List.filter_append, List.map_append, List.append_assoc]

/-- The subfields of a data field decoded by `parseRecord` are not empty. -/
theorem FieldsOK_data_ne_nil (fields : FieldMap) (hok : FieldsOK fields) (tag : Str)
    (htag : strLt tag (bytes "010") = false) (fld : List marcField)
    (hget : mapGet fields tag = some fld) :
    ∀ fl ∈ fld, ∀ sf ∈ fl.contents, sf ≠ [] := by
  intro fl hfl sf hsf hnil
  obtain ⟨p, hp⟩ := (hok tag fld hget).2 fl hfl
  subst hp
  rw [decodeField_data_contents tag p htag] at hsf
  have := (List.mem_filter.1 hsf).2
  simp [hnil] at this

/-- The fields under a control tag decoded by `parseRecord` hold one value. -/
theorem FieldsOK_control (fields : FieldMap) (hok : FieldsOK fields) (tag : Str)
    (htag : strLt tag (bytes "010") = true) (fld : List marcField)
    (hget : mapGet fields tag = some fld) :
    ∀ fl ∈ fld, ∃ p, fl = { indicators := [], contents := [p] } := by
  intro fl hfl
  obtain ⟨p, hp⟩ := (hok tag fld hget).2 fl hfl
  exact ⟨p, by rw [hp, decodeField_control_eq tag p htag]⟩

theorem find?_of_filter_eq_cons {α : Type} (p : α → Bool) (l : List α) (a : α) (as : List α)
    (h : l.filter p = a :: as) : l.find? p = some a := by
  induction l with
  | nil => simp at h
  | cons x xs ih =>
    by_cases hx : p x = true
    · simp only [List.filter_cons, hx, if_true, List.cons.injEq] at h
      obtain ⟨rfl, _⟩ := h
      simp [List.find?_cons, hx]
    · simp only [List.filter_cons, hx] at h
      simp only [List.find?_cons, hx]
      exact ih h

/-- C6: on a reader whose current record is `rec`, for a data tag (not below
"010") and a non-empty subfield code, `GetField` returns `(v, true)` with `v`
the text after the code byte of the first subfield, in field order then
subfield order, that has the code as a prefix, and `("", false)` when there
is none; so it returns `("", false)` exactly when no subfield under the tag
matches. -/
theorem GetField_first_match (r : Reader) (rec : marcRecord) (tag subfield : Str)
    (hcur : r.current = some rec) (htag : strLt tag (bytes "010") = false)
    (hsub : subfield ≠ []) :
    r.GetField tag subfield =
      (match (subfieldsUnder rec tag).find? (fun sf => HasPrefix sf subfield) with
       | some sf => .done (sf.drop 1, true)
       | none => .done ([], false)) ∧
    (r.GetField tag subfield = .done ([], false) ↔
      ∀ sf ∈ subfieldsUnder rec tag, HasPrefix sf subfield = false) := by
  have key : r.GetField tag subfield =
      (match (subfieldsUnder rec tag).find? (fun sf => HasPrefix sf subfield) with
       | some sf => Run.done (sf.drop 1, true)
       | none => Run.done ([], false)) := by
    cases hget : mapGet rec.fields tag with
    | none => simp [Reader.GetField, subfieldsUnder, fieldsUnder, hcur, hget]
    | some fld =>
      simp only [Reader.GetField, subfieldsUnder, fieldsUnder, hcur, hget, htag, hsub,
        if_false, Option.getD_some, Bool.false_eq_true]
      exact GetField_outer_eq subfield hsub fld
  refine ⟨key, ?_⟩
  rw [key]
  cases hf : (subfieldsUnder rec tag).find? (fun sf => HasPrefix sf subfield) with
  | none =>
    simp only [true_iff]
    intro sf hsf
    have := List.find?_eq_none.1 hf sf hsf
    simpa using this
  | some sf =>
    simp only [Run.done.injEq, Prod.mk.injEq, Bool.true_eq_false, and_false, false_iff]
    intro hall
    have hmem := List.mem_of_find?_eq_some hf
    have hp := List.find?_some hf
    rw [hall sf hmem] at hp
    cases hp

/-- Witness of C6: subfield code "x" under tag "650" of the sample record. -/
theorem GetField_first_match_witness :
    Reader.GetField ⟨[], some sampleParsed, none⟩ (bytes "650") (bytes "x")
      = .done (bytes "General", true) :=
  (GetField_first_match ⟨[], some sampleParsed, none⟩ sampleParsed (bytes "650") (bytes "x")
    rfl (by decide) (by decide)).1.trans (by decide)

/-- C7: on a reader whose current record `rec` was decoded by `parseRecord`,
for a data tag (not below "010") and any subfield code, `GetFields` returns
the text after the code byte of every subfield under the tag that has the
code as a prefix, in field order then subfield order (every subfield when the
code is empty), and the found flag is true exactly when that list is not
empty. -/
theorem GetFields_all_matches (data : Str) (rec : marcRecord) (r : Reader)
    (tag subfield : Str) (hdec : parseRecord data = .done (some rec, none))
    (hcur : r.current = some rec) (htag : strLt tag (bytes "010") = false) :
    (∃ found, r.GetFields tag subfield =
        .done (((subfieldsUnder rec tag).filter (fun sf => HasPrefix sf subfield)).map
          (fun sf => sf.drop 1), found) ∧
      (found = true ↔
        ((subfieldsUnder rec tag).filter (fun sf => HasPrefix sf subfield)).map
          (fun sf => sf.drop 1) ≠ [])) ∧
    (subfield = [] →
      (subfieldsUnder rec tag).filter (fun sf => HasPrefix sf subfield)
        = subfieldsUnder rec tag) := by
  have hok := parseRecord_FieldsOK data rec hdec
  refine ⟨?_, ?_⟩
  · cases hget : mapGet rec.fields tag with
    | none => exact ⟨false, by simp [Reader.GetFields, subfieldsUnder, fieldsUnder, hcur, hget]⟩
    | some fld =>
      have hne := FieldsOK_data_ne_nil rec.fields hok tag htag fld hget
      have hfilter : (fun sf => decide (subfield = []) || HasPrefix sf subfield)
          = (fun sf => HasPrefix sf subfield) := by
        funext sf
        by_cases hs : subfield = []
        · simp [hs, HasPrefix_nil]
        · simp [hs]
      simp only [Reader.GetFields, subfieldsUnder, fieldsUnder, hcur, hget, htag, if_false,
        Option.getD_some, Bool.false_eq_true,
        GetFields_outer_eq _ subfield fld hne, List.nil_append, hfilter]
      refine ⟨_, rfl, ?_⟩
      simp only [decide_eq_true_eq, gt_iff_lt, List.length_pos, ne_eq]
  · intro hs
    subst hs
    apply List.filter_eq_self.2
    intro sf _
    exact HasPrefix_nil sf

set_option maxRecDepth 100000 in
/-- Witness of C7: subfield code "a" under tag "650" of the sample record. -/
theorem GetFields_all_matches_witness :
    ∃ found, Reader.GetFields ⟨[], some sampleParsed, none⟩ (bytes "650") (bytes "a") =
        .done (((subfieldsUnder sampleParsed (bytes "650")).filter
          (fun sf => HasPrefix sf (bytes "a"))).map (fun sf => sf.drop 1), found) ∧
      (found = true ↔
        ((subfieldsUnder sampleParsed (bytes "650")).filter
          (fun sf => HasPrefix sf (bytes "a"))).map (fun sf => sf.drop 1) ≠ []) :=
  (GetFields_all_matches sampleRecord sampleParsed ⟨[], some sampleParsed, none⟩
    (bytes "650") (bytes "a") (by decide) rfl (by decide)).1

/-- C8 as stated fails: `bareRecord` decodes, the data tag "650" is present
in it, and `GetField("650", "")` does not return a value: the first field
under the tag has no subfield and `fld[0].contents[0]` is out of range. -/
theorem GetField_empty_code_counterexample :
    parseRecord bareRecord = .done (some bareParsed, none) ∧
    strLt (bytes "650") (bytes "010") = false ∧
    mapGet bareParsed.fields (bytes "650")
      = some [{ indicators := bytes "  ", contents := [] }] ∧
    Reader.GetField ⟨[], some bareParsed, none⟩ (bytes "650") [] = .panic := by
  decide

/-- C8, amended: on a reader whose current record `rec` was decoded by
`parseRecord`, for a data tag (not below "010") present in the record whose
first field `f0` has at least one subfield, `GetField(tag, "")` returns
`(v, true)` with `v` the first subfield `c0` of `f0` without its leading code
byte. -/
theorem GetField_empty_code (data : Str) (rec : marcRecord) (r : Reader) (tag : Str)
    (f0 : marcField) (rest : List marcField) (c0 : Str) (cs : List Str)
    (hdec : parseRecord data = .done (some rec, none))
    (hcur : r.current = some rec) (htag : strLt tag (bytes "010") = false)
    (hfld : mapGet rec.fields tag = some (f0 :: rest))
    (hc : f0.contents = c0 :: cs) :
    r.GetField tag [] = .done (c0.drop 1, true) := by
  have hok := parseRecord_FieldsOK data rec hdec
  have hne : c0 ≠ [] :=
    FieldsOK_data_ne_nil rec.fields hok tag htag _ hfld f0 (List.mem_cons_self _ _) c0
      (by rw [hc]; exact List.mem_cons_self _ _)
  simp only [Reader.GetField, hcur, hfld, htag, hc, if_true, if_false, Bool.false_eq_true,
    sliceFrom1_of_ne_nil c0 hne]

set_option maxRecDepth 100000 in
/-- Witness of C8 amended: tag "650" of the sample record. -/
theorem GetField_empty_code_witness :
    Reader.GetField ⟨[], some sampleParsed, none⟩ (bytes "650") []
      = .done ((bytes "aTopicA").drop 1, true) :=
  GetField_empty_code sampleRecord sampleParsed ⟨[], some sampleParsed, none⟩ (bytes "650")
    { indicators := bytes "  ", contents := [bytes "aTopicA", bytes "xGeneral"] } []
    (bytes "aTopicA") [bytes "xGeneral"] (by decide) rfl (by decide) (by decide) rfl

/-- C9: on a reader whose current record `rec` was decoded by `parseRecord`
from `data`, for a control tag (below "010") present in the record, the first
field under the tag holds no indicators and one value `t`, which is the
payload of the first directory entry carrying the tag, and for every subfield
code `GetField` returns `(t, true)` and `GetFields` returns `([t], true)`:
the code has no influence and nothing is stripped. -/
theorem GetField_GetFields_control (data : Str) (rec : marcRecord) (r : Reader) (tag : Str)
    (hdec : parseRecord data = .done (some rec, none))
    (hcur : r.current = some rec) (htag : strLt tag (bytes "010") = true)
    (hpres : mapGet rec.fields tag ≠ none) :
    ∃ (t : Str) (rest : List marcField),
      fieldsUnder rec tag = { indicators := [], contents := [t] } :: rest ∧
      (∃ (base : Int) (e0 : Str), Sscanf_d 5 ((data.drop 12).take 5) = some base ∧
        (entriesOf data base).find? (fun e => decide (entryTag e = tag)) = some e0 ∧
        t = entryPayload data base e0) ∧
      ∀ subfield, r.GetField tag subfield = .done (t, true) ∧
        r.GetFields tag subfield = .done ([t], true) := by
  obtain ⟨_, _, base, hbase, _, _, _, hloop⟩ := parseRecord_done data rec hdec
  obtain ⟨_, hget, _, hok⟩ := parseLoop_done data base _ _ 0 [] rec.fields hloop
  have hfo := hok FieldsOK_nil
  cases hg : mapGet rec.fields tag with
  | none => exact absurd hg hpres
  | some fld =>
    have hlist := hget tag
    simp only [hg, Option.getD_some, mapGet, Option.getD_none, List.nil_append,
      List.drop_zero] at hlist
    cases hfil : (dirEntries ((directoryOf data base).length / 12) (directoryOf data base)).filter
        (fun e => decide (entryTag e = tag)) with
    | nil =>
      rw [hfil] at hlist
      exact absurd hlist (hfo tag fld hg).1
    | cons e0 es =>
      rw [hfil] at hlist
      have he0 : entryTag e0 = tag := by
        have hm : e0 ∈ (dirEntries ((directoryOf data base).length / 12)
            (directoryOf data base)).filter (fun e => decide (entryTag e = tag)) := by
          rw [hfil]; exact List.mem_cons_self _ _
        simpa using (List.mem_filter.1 hm).2
      have hf0 : entryField data base e0
          = { indicators := [], contents := [entryPayload data base e0] } := by
        rw [entryField, he0, decodeField_control_eq tag _ htag]
      simp only [List.map_cons, hf0] at hlist
      refine ⟨entryPayload data base e0, es.map (entryField data base), ?_, ?_, ?_⟩
      · simp [fieldsUnder, hg, hlist]
      · exact ⟨base, e0, hbase, find?_of_filter_eq_cons _ _ e0 es hfil, rfl⟩
      · intro subfield
        simp [Reader.GetField, Reader.GetFields, hcur, hg, htag, hlist]

set_option maxRecDepth 100000 in
/-- Witness of C9: the control tag "001" of the sample record. -/
theorem GetField_GetFields_control_witness :
    ∃ (t : Str) (rest : List marcField),
      fieldsUnder sampleParsed (bytes "001") = { indicators := [], contents := [t] } :: rest ∧
      (∃ (base : Int) (e0 : Str), Sscanf_d 5 ((sampleRecord.drop 12).take 5) = some base ∧
        (entriesOf sampleRecord base).find? (fun e => decide (entryTag e = bytes "001"))
          = some e0 ∧
        t = entryPayload sampleRecord base e0) ∧
      ∀ subfield,
        Reader.GetField ⟨[], some sampleParsed, none⟩ (bytes "001") subfield = .done (t, true) ∧
        Reader.GetFields ⟨[], some sampleParsed, none⟩ (bytes "001") subfield
          = .done ([t], true) :=
  GetField_GetFields_control sampleRecord sampleParsed ⟨[], some sampleParsed, none⟩
    (bytes "001") (by decide) rfl (by decide) (by decide)

set_option maxRecDepth 100000 in
/-- C10, the failing input: reading the one-record stream `bareRecord` with
`Next` succeeds, and on the reader it leaves `GetField("650", "")` panics
(index out of range in `fld[0].contents[0]`), while `GetFields("650", "")`
on the same reader reports absence through `found = false`. -/
theorem GetField_panics_after_Next :
    ∃ r, (NewReader bareRecord).Next = .done (true, r) ∧
      r.GetField (bytes "650") [] = .panic ∧
      r.GetFields (bytes "650") [] = .done ([], false) :=
  ⟨⟨[], some bareParsed, none⟩, by decide, by decide, by decide⟩

/-! ## The scanner on decimal digits -/

theorem parseDigits_foldl (ds : Str) (acc : Nat) :
    ds.foldl (fun n d => n * 10 + (d - 48)) acc = acc * 10 ^ ds.length + decimalValue ds := by
  induction ds generalizing acc with
  | nil => simp [decimalValue]
  | cons d ds ih =>
    simp only [List.foldl_cons, ih, List.length_cons, decimalValue, pow_succ]
    ring

theorem parseDigits_eq_decimalValue (ds : Str) : parseDigits ds = decimalValue ds := by
  simp [parseDigits, parseDigits_foldl]

theorem spaceWidth_digit (b : Nat) (rest : Str) (h : isDigit b = true) :
    spaceWidth (b :: rest) = 0 := by
  simp only [isDigit, Bool.and_eq_true, decide_eq_true_eq] at h
  simp only [spaceWidth]
  split_ifs <;> first | rfl | omega

theorem SkipSpace_digit (b : Nat) (rest : Str) (h : isDigit b = true) :
    SkipSpace (b :: rest) = some (b :: rest) := by
  have hw := spaceWidth_digit b rest h
  simp only [isDigit, Bool.and_eq_true, decide_eq_true_eq] at h
  have hb : b ≠ 0x0A := by omega
  simp only [SkipSpace, List.length_cons, skipSpaceLoop, hb, if_false, hw]

theorem takeWhile_all {α : Type} (p : α → Bool) (l : List α) (h : ∀ a ∈ l, p a = true) :
    l.takeWhile p = l := by
  induction l with
  | nil => rfl
  | cons a as ih =>
    simp only [List.takeWhile, h a (List.mem_cons_self _ _)]
    rw [ih (fun x hx => h x (List.mem_cons_of_mem _ hx))]

/-- `Sscanf` with `%0<w>d` on at most `w` bytes, all decimal digits, gives
the number they write. -/
theorem Sscanf_d_digits (w : Nat) (s : Str) (hne : s ≠ [])
    (hd : ∀ d ∈ s, isDigit d = true) (hw : s.length ≤ w) :
    Sscanf_d w s = some (decimalValue s : Int) := by
  cases s with
  | nil => exact absurd rfl hne
  | cons b rest =>
    have hb := hd b (List.mem_cons_self _ _)
    have htake : (b :: rest).take w = b :: rest := List.take_of_length_le hw
    have hb2 : 48 ≤ b ∧ b ≤ 57 := by
      simpa [isDigit] using hb
    have h2D : b ≠ 0x2D := by omega
    have h2B : b ≠ 0x2B := by omega
    simp only [Sscanf_d, SkipSpace_digit b rest hb, htake, List.head?_cons, Option.some.injEq,
      h2D, h2B, or_self, if_false, decide_False, takeWhile_all isDigit (b :: rest) hd,
      Bool.false_eq_true, parseDigits_eq_decimalValue]
    simp

/-! ## The stream reader -/

theorem ReadFull_append (a rest : Str) : ReadFull (a ++ rest) a.length = (a, none, rest) := by
  cases a with
  | nil => simp [ReadFull]
  | cons x xs =>
    simp [ReadFull]

/-- `Next` on a stream that starts with a well-formed record reads exactly
that record and makes its decoding the current record. -/
theorem Next_frame (rec rest : Str) (cur : Option marcRecord) (err : Option GoError)
    (m : marcRecord) (hwf : WellFormedFrame rec)
    (hm : parseRecord rec = .done (some m, none)) :
    Reader.Next ⟨rec ++ rest, cur, err⟩ = .done (true, ⟨rest, some m, none⟩) := by
  obtain ⟨h5, hdig, hval, _⟩ := hwf
  have hsplit : rec ++ rest = rec.take 5 ++ (rec.drop 5 ++ rest) := by
    rw [← List.append_assoc, List.take_append_drop]
  have hlen5 : (rec.take 5).length = 5 := by
    simp [List.length_take]; omega
  have hr1 : ReadFull (rec ++ rest) 5 = (rec.take 5, none, rec.drop 5 ++ rest) := by
    have := ReadFull_append (rec.take 5) (rec.drop 5 ++ rest)
    rw [hlen5, ← hsplit] at this
    exact this
  have hne : rec.take 5 ≠ [] := by
    intro h
    rw [h] at hlen5
    simp at hlen5
  have hscan : Sscanf_d 5 (rec.take 5) = some (rec.length : Int) := by
    rw [Sscanf_d_digits 5 (rec.take 5) hne hdig (by omega), hval]
  have hr2 : ReadFull (rec.drop 5 ++ rest) ((rec.length : Int).toNat - 5)
      = (rec.drop 5, none, rest) := by
    have := ReadFull_append (rec.drop 5) rest
    simpa [List.length_drop] using this
  have hnot : ¬ ((rec.length : Int) < 5) := by omega
  simp only [Reader.Next, hr1, hscan, hnot, if_false, hr2, List.take_append_drop, hm,
    decide_True]

theorem Next_end (cur : Option marcRecord) (err : Option GoError) :
    Reader.Next ⟨[], cur, err⟩ = .done (false, ⟨[], cur, err⟩) := by
  simp [Reader.Next, ReadFull]

/-- The calls of `Next` on a concatenation of well-formed records, from any
current record and no error. -/
theorem callNext_frames (recs : List Str) :
    ∀ (cur : Option marcRecord), (∀ rec ∈ recs, WellFormedFrame rec) →
      ∃ calls, callNext (recs.length + 1) ⟨recs.flatten, cur, none⟩ = .done calls ∧
        (∀ i rec, recs[i]? = some rec →
          ∃ m, parseRecord rec = .done (some m, none) ∧
            calls[i]? = some (true, ⟨(recs.drop (i + 1)).flatten, some m, none⟩) ∧
            (recs.drop (i + 1)).flatten = ((recs.drop i).flatten).drop rec.length) ∧
        ∃ rd, calls[recs.length]? = some (false, rd) ∧ rd.Err = none ∧ rd.f = [] := by
  induction recs with
  | nil =>
    intro cur _
    refine ⟨[(false, ⟨[], cur, none⟩)], ?_, ?_, ⟨⟨[], cur, none⟩, by simp, rfl, rfl⟩⟩
    · simp [callNext, Next_end]
    · intro i rec h
      simp at h
  | cons rec0 rest ih =>
    intro cur hwf
    have hwf0 := hwf rec0 (List.mem_cons_self _ _)
    obtain ⟨m0, hm0⟩ := hwf0.2.2.2
    obtain ⟨calls, htr, hidx, rd, hlast, hErr, hf⟩ :=
      ih (some m0) (fun r hr => hwf r (List.mem_cons_of_mem _ hr))
    have hnext := Next_frame rec0 rest.flatten cur none m0 hwf0 hm0
    refine ⟨(true, ⟨rest.flatten, some m0, none⟩) :: calls, ?_, ?_, ⟨rd, ?_, hErr, hf⟩⟩
    · simp only [List.length_cons, List.flatten_cons]
      rw [callNext, hnext]
      simp only [htr]
    · intro i rec hi
      cases i with
      | zero =>
        simp only [List.getElem?_cons_zero, Option.some.injEq] at hi
        subst hi
        exact ⟨m0, hm0, by simp, by simp⟩
      | succ j =>
        simp only [List.getElem?_cons_succ] at hi
        obtain ⟨m, hm, ht, hd⟩ := hidx j rec hi
        exact ⟨m, hm, by simpa using ht, by simpa using hd⟩
    · simpa using hlast

/-- C1: on a stream that is the concatenation of `n ≥ 0` well-formed records
(each starting with its own total length as five zero-padded decimal digits,
and decodable), the first `n` calls of `Next` return true, the call on record
`i` leaves as current record the decoding by `parseRecord` of that record's
whole byte span and leaves the stream after that record, that is advanced by
exactly the record's length, and call `n + 1` returns false with `Err` nil. -/
theorem Next_concat (recs : List Str) (hwf : ∀ rec ∈ recs, WellFormedFrame rec) :
    ∃ calls, callNext (recs.length + 1) (NewReader recs.flatten) = .done calls ∧
      (∀ i rec, recs[i]? = some rec →
        ∃ m, parseRecord rec = .done (some m, none) ∧
          calls[i]? = some (true, ⟨(recs.drop (i + 1)).flatten, some m, none⟩) ∧
          (recs.drop (i + 1)).flatten = ((recs.drop i).flatten).drop rec.length) ∧
      ∃ rd, calls[recs.length]? = some (false, rd) ∧ rd.Err = none ∧ rd.f = [] :=
  callNext_frames recs none hwf

set_option maxRecDepth 100000 in
/-- Witness of C1: the stream of the sample record followed by `bareRecord`. -/
theorem Next_concat_witness :
    ∃ calls, callNext 3 (NewReader [sampleRecord, bareRecord].flatten) = .done calls ∧
      (∀ i rec, [sampleRecord, bareRecord][i]? = some rec →
        ∃ m, parseRecord rec = .done (some m, none) ∧
          calls[i]? = some (true, ⟨([sampleRecord, bareRecord].drop (i + 1)).flatten,
            some m, none⟩) ∧
          ([sampleRecord, bareRecord].drop (i + 1)).flatten
            = (([sampleRecord, bareRecord].drop i).flatten).drop rec.length) ∧
      ∃ rd, calls[2]? = some (false, rd) ∧ rd.Err = none ∧ rd.f = [] :=
  Next_concat [sampleRecord, bareRecord] (by
    intro rec hrec
    simp only [List.mem_cons, List.mem_singleton, List.not_mem_nil, or_false] at hrec
    rcases hrec with rfl | rfl
    · exact ⟨by decide, by decide, by decide, sampleParsed, by decide⟩
    · exact ⟨by decide, by decide, by decide, bareParsed, by decide⟩)

/-! ## Rejected records -/

theorem slice_panic (data : Str) (lo hi : Int)
    (h : ¬ (0 ≤ lo ∧ lo ≤ hi ∧ hi ≤ (data.length : Int))) : slice data lo hi = .panic := by
  simp only [slice, h, if_false]

/-- The first two slices of `parseRecord` on at least 24 bytes. -/
theorem parseRecord_leader_slices (data : Str) (hlen : 24 ≤ data.length) :
    slice data 0 24 = .done (data.take 24) ∧
    slice data 12 17 = .done ((data.drop 12).take 5) := by
  refine ⟨?_, ?_⟩
  · rw [slice_done data 0 24 (by omega) (by omega) (by omega)]
    simp
  · rw [slice_done data 12 17 (by omega) (by omega) (by omega)]
    rfl

/-- The two error returns of the base address step (lines 83-89): on at
least 24 bytes, when `fmt.Sscanf` fails on bytes `[12:17]`, `parseRecord`
returns no record and the scan error, and when it scans them as `b` with
`b ≤ 0` or `b ≥ len(data)` it returns no record and the error
`invalid base address`. -/
theorem parseRecord_base_rejected (data : Str) (hlen : 24 ≤ data.length) :
    (Sscanf_d 5 ((data.drop 12).take 5) = none →
      parseRecord data = .done (none, some .scanBase)) ∧
    (∀ b : Int, Sscanf_d 5 ((data.drop 12).take 5) = some b →
      (b ≤ 0 ∨ b ≥ (data.length : Int)) →
      parseRecord data = .done (none, some .invalidBase)) := by
  obtain ⟨h1, h2⟩ := parseRecord_leader_slices data hlen
  refine ⟨?_, ?_⟩
  · intro hs
    simp only [parseRecord, h1, h2, hs]
  · intro b hs hb
    simp only [parseRecord, h1, h2, hs, hb, if_true]

/-- The base address step on `badBaseRecord`, base address 0. -/
theorem parseRecord_base_rejected_witness :
    parseRecord badBaseRecord = .done (none, some .invalidBase) :=
  (parseRecord_base_rejected badBaseRecord (by decide)).2 0 (by decide) (by decide)

set_option maxRecDepth 100000 in
/-- C11, the failing inputs: bytes `[12:17]` of `looseBaseRecord` are
"1abcd", not a decimal integer; `fmt.Sscanf` scans them as 1, the test
`0 < base < len(data)` passes and `parseRecord` panics at `data[24:0]` where
the claim has it return an error.  Bytes `[12:17]` of `trailingBaseRecord`
are "37abc", not a decimal integer either; they scan as 37 and `parseRecord`
returns a record and no error. -/
theorem parseRecord_accepts_loose_base :
    (24 ≤ looseBaseRecord.length ∧
      (looseBaseRecord.drop 12).take 5 = bytes "1abcd" ∧
      Sscanf_d 5 ((looseBaseRecord.drop 12).take 5) = some 1 ∧
      parseRecord looseBaseRecord = .panic) ∧
    (24 ≤ trailingBaseRecord.length ∧
      (trailingBaseRecord.drop 12).take 5 = bytes "37abc" ∧
      isDigit 0x61 = false ∧
      Sscanf_d 5 ((trailingBaseRecord.drop 12).take 5) = some 37 ∧
      parseRecord trailingBaseRecord
        = .done (some { leader := bytes "00041nam  2237abc   4500",
                        fields := [(bytes "650",
                          [{ indicators := bytes "  ", contents := [] }])] }, none)) := by
  decide

/-- C12: on at least 24 bytes with a base address `b`, `0 < b < len(data)`,
whose directory span `data[24 : b-1]` has a length that is not a multiple of
12 (there is such a span, of a length other than 0, only when `b > 25`),
`parseRecord` returns no record and the error `invalid directory format`. -/
theorem parseRecord_directory_rejected (data : Str) (b : Int) (hlen : 24 ≤ data.length)
    (hbase : Sscanf_d 5 ((data.drop 12).take 5) = some b)
    (hb1 : 0 < b) (hb2 : b < (data.length : Int))
    (hdir : (directoryOf data b).length % 12 ≠ 0) :
    parseRecord data = .done (none, some .invalidDirectory) := by
  obtain ⟨h1, h2⟩ := parseRecord_leader_slices data hlen
  have hpos : (directoryOf data b).length ≠ 0 := by
    intro h0
    rw [h0] at hdir
    exact hdir rfl
  have hb25 : 25 < b := by
    by_contra hle
    apply hpos
    have : b.toNat - 1 - 24 = 0 := by omega
    simp [directoryOf, this]
  have h3 : slice data 24 (b - 1) = .done (directoryOf data b) := by
    rw [slice_done data 24 (b - 1) (by omega) (by omega) (by omega)]
    simp only [directoryOf]
    congr 2
    omega
  have h4 : ¬ (b ≤ 0 ∨ b ≥ (data.length : Int)) := by omega
  simp only [parseRecord, h1, h2, hbase, h4, if_false, h3, hdir, ne_eq, not_false_eq_true,
    if_true]

/-- Witness of C12: `oddDirectoryRecord`, base address 36, a directory of
11 bytes. -/
theorem parseRecord_directory_rejected_witness :
    parseRecord oddDirectoryRecord = .done (none, some .invalidDirectory) :=
  parseRecord_directory_rejected oddDirectoryRecord 36 (by decide) (by decide) (by decide)
    (by decide) (by decide)

/-- On fewer than 24 bytes `parseRecord` does not return: `data[0:24]` is out
of range. -/
theorem parseRecord_panics_of_short (data : Str) (h : data.length < 24) :
    parseRecord data = .panic := by
  have hs : slice data 0 24 = .panic := slice_panic data 0 24 (by omega)
  simp only [parseRecord, hs]

/-- C13, the failing input: `shortStream` holds 10 bytes and its length
prefix declares 10; `parseRecord` on these bytes panics (`data[0:24]` out of
range) where the claim has it return an error, and `Next` on the stream
panics where the claim has it return false with `Err` set. -/
theorem parseRecord_short_panics :
    shortStream.length < 24 ∧
    Sscanf_d 5 (shortStream.take 5) = some 10 ∧
    parseRecord shortStream = .panic ∧
    (NewReader shortStream).Next = .panic := by
  decide

/-! ## Framing failures -/

theorem ReadFull_full (f : Str) (n : Nat) (hn : n ≠ 0) (h : n ≤ f.length) :
    ReadFull f n = (f.take n, none, f.drop n) := by
  have hne : f ≠ [] := by
    intro h0
    subst h0
    simp at h
    exact hn h
  have hlt : ¬ f.length < n := by omega
  simp only [ReadFull, hn, hne, hlt, if_false]

theorem ReadFull_short (f : Str) (n : Nat) (h : f.length < n) :
    ∃ bs e, ReadFull f n = (bs, some e, []) := by
  have hn : n ≠ 0 := by omega
  by_cases hf : f = []
  · exact ⟨[], .EOF, by simp only [ReadFull, hn, hf, if_false, if_true]⟩
  · exact ⟨f, .ErrUnexpectedEOF, by simp only [ReadFull, hn, hf, h, if_false, if_true]⟩

theorem ReadFull_err_rest (f : Str) (n : Nat) (bs f2 : Str) (e : ReadErr)
    (h : ReadFull f n = (bs, some e, f2)) : f2 = [] := by
  unfold ReadFull at h
  split_ifs at h <;> simp_all

/-- `Next` at the end of the stream returns false and changes nothing. -/
theorem Next_of_EOF (r : Reader) (h : r.f = []) : r.Next = .done (false, r) := by
  cases r with
  | mk f cur err =>
    simp only at h
    subst h
    exact Next_end cur err

/-- `Next` on a stream of 1 to 4 bytes returns false with `Err` set. -/
theorem Next_of_short_prefix (r : Reader) (h1 : r.f ≠ []) (h2 : r.f.length < 5) :
    r.Next = .done (false, ⟨[], r.current, some .readLength⟩) := by
  have hr : ReadFull r.f 5 = (r.f, some .ErrUnexpectedEOF, []) := by
    simp only [ReadFull, h1, h2, if_false, if_true]
    simp
  simp only [Reader.Next, hr]

/-- C15: on a stream whose first 5 bytes scan as a record length `L` and
which holds fewer than `L` bytes, `Next` returns false and sets `Err`
(`invalid reading record contents`); it returns without running the decoder,
and the current record stays what it was before the call. -/
theorem Next_truncated (r : Reader) (L : Int) (h5 : 5 ≤ r.f.length)
    (hscan : Sscanf_d 5 (r.f.take 5) = some L) (hshort : (r.f.length : Int) < L) :
    r.Next = .done (false, ⟨[], r.current, some .readContents⟩) := by
  have hr1 := ReadFull_full r.f 5 (by omega) h5
  have hL : ¬ L < 5 := by omega
  have hlen : (r.f.drop 5).length < L.toNat - 5 := by
    simp only [List.length_drop]
    omega
  obtain ⟨bs, e, hr2⟩ := ReadFull_short (r.f.drop 5) (L.toNat - 5) hlen
  simp only [Reader.Next, hr1, hscan, hL, if_false, hr2]

set_option maxRecDepth 100000 in
/-- Witness of C15: the first 50 bytes of the 77-byte sample record. -/
theorem Next_truncated_witness :
    (NewReader (sampleRecord.take 50)).Next
      = .done (false, ⟨[], none, some .readContents⟩) :=
  Next_truncated (NewReader (sampleRecord.take 50)) 77 (by decide) (by decide) (by decide)

set_option maxRecDepth 100000 in
/-- C14, the failing input: the first 5 bytes of `spacePaddedStream` are
" 0041", not five decimal digits; `Next` scans them as 41, reads the record,
runs `parseRecord` on the 41 bytes and returns true with the decoded record
as current and `Err` nil. -/
theorem Next_accepts_space_padded_length :
    spacePaddedStream.take 5 = bytes " 0041" ∧
    isDigit 0x20 = false ∧
    Sscanf_d 5 (spacePaddedStream.take 5) = some 41 ∧
    ∃ rec, parseRecord spacePaddedStream = .done (some rec, none) ∧
      (NewReader spacePaddedStream).Next = .done (true, ⟨[], some rec, none⟩) :=
  ⟨by decide, by decide, by decide,
   ⟨{ leader := bytes " 0041nam  2200037   4500",
      fields := [(bytes "650", [{ indicators := bytes "  ", contents := [] }])] },
    by decide, by decide⟩⟩

/-! ## Calls of `Next` after a failure -/

/-- The errors `parseRecord` returns are its own three. -/
theorem parseRecord_err_kind (data : Str) (cur : Option marcRecord) (e : GoError)
    (h : parseRecord data = .done (cur, some e)) :
    e = .scanBase ∨ e = .invalidBase ∨ e = .invalidDirectory := by
  unfold parseRecord at h
  split at h
  · cases h
  · split at h
    · cases h
    · split at h
      · simp only [Run.done.injEq, Prod.mk.injEq, Option.some.injEq] at h
        exact Or.inl h.2.symm
      · split at h
        · simp only [Run.done.injEq, Prod.mk.injEq, Option.some.injEq] at h
          exact Or.inr (Or.inl h.2.symm)
        · split at h
          · cases h
          · split at h
            · simp only [Run.done.injEq, Prod.mk.injEq, Option.some.injEq] at h
              exact Or.inr (Or.inr h.2.symm)
            · split at h
              · cases h
              · simp at h

/-- A call of `Next` that returns false and leaves `Err` at one of the two
read errors leaves the stream exhausted. -/
theorem Next_read_error_exhausts (r r1 : Reader) (h : r.Next = .done (false, r1))
    (he : r1.Err = some .readLength ∨ r1.Err = some .readContents) : r1.f = [] := by
  unfold Reader.Next at h
  split at h
  · rename_i bs f1 hr
    simp only [Run.done.injEq, Prod.mk.injEq, true_and] at h
    subst h
    exact ReadFull_err_rest _ _ _ _ _ hr
  · rename_i bs f1 hr
    simp only [Run.done.injEq, Prod.mk.injEq, true_and] at h
    subst h
    exact ReadFull_err_rest _ _ _ _ _ hr
  · rename_i first5 f1 hr
    split at h
    · simp only [Run.done.injEq, Prod.mk.injEq, true_and] at h
      subst h
      simp at he
    · split at h
      · cases h
      · split at h
        · rename_i bs e f2 hr2
          simp only [Run.done.injEq, Prod.mk.injEq, true_and] at h
          subst h
          exact ReadFull_err_rest _ _ _ _ _ hr2
        · rename_i body f2 hr2
          split at h
          · cases h
          · rename_i cur err hp
            simp only [Run.done.injEq, Prod.mk.injEq, decide_eq_false_iff_not] at h
            obtain ⟨herr, hr1⟩ := h
            subst hr1
            simp only at he
            cases err with
            | none => exact absurd rfl herr
            | some e =>
              rcases parseRecord_err_kind _ _ _ hp with rfl | rfl | rfl <;> simp at he

/-- On an exhausted stream every call of `Next` returns false and leaves the
reader as it is. -/
theorem callNext_of_EOF (r : Reader) (h : r.f = []) :
    ∀ k, callNext k r = .done (List.replicate k (false, r)) := by
  intro k
  induction k with
  | zero => rfl
  | succ k ih =>
    simp only [callNext, Next_of_EOF r h, ih, List.replicate_succ]

set_option maxRecDepth 100000 in
/-- C16 as stated fails: on the stream `badBaseRecord ++ sampleRecord` the
first call of `Next` returns false with `Err` set (invalid base address) and
no current record, and the second call returns true, makes the decoding of
the sample record current and sets `Err` back to nil. -/
theorem Next_resumes_after_error :
    callNext 2 (NewReader (badBaseRecord ++ sampleRecord))
      = .done [(false, ⟨sampleRecord, none, some .invalidBase⟩),
               (true, ⟨[], some sampleParsed, none⟩)] := by
  decide

/-- C16, amended: once a call of `Next` has returned false with `Err` set to
a read error of a truncated stream (the stream ended inside the 5-byte length
prefix, or before the declared record length), every later call of `Next`
returns false and leaves the reader as it is: `Err` stays set, the current
record does not change, and nothing more is read. -/
theorem Next_truncation_terminal (r r1 : Reader) (h : r.Next = .done (false, r1))
    (he : r1.Err = some .readLength ∨ r1.Err = some .readContents) :
    ∀ k, callNext k r1 = .done (List.replicate k (false, r1)) :=
  callNext_of_EOF r1 (Next_read_error_exhausts r r1 h he)

set_option maxRecDepth 100000 in
/-- Witness of C16 amended: two more calls after the truncated sample
record. -/
theorem Next_truncation_terminal_witness :
    callNext 2 ⟨[], none, some .readContents⟩
      = .done [(false, ⟨[], none, some .readContents⟩),
               (false, ⟨[], none, some .readContents⟩)] :=
  Next_truncation_terminal (NewReader (sampleRecord.take 50))
    ⟨[], none, some .readContents⟩ (by decide) (Or.inr rfl) 2

/-! ## Prefix match and exact match -/

theorem HasPrefix_single (sf : Str) (c : Nat) :
    HasPrefix sf [c] = decide (sf.head? = some c) := by
  cases sf with
  | nil => simp [HasPrefix, List.isPrefixOf]
  | cons a as =>
    by_cases h : a = c
    · subst h
      simp [HasPrefix, List.isPrefixOf]
    · have h2 : ¬ c = a := fun e => h e.symm
      simp [HasPrefix, List.isPrefixOf, h, h2]

/-- `GetField` on a data tag with a non-empty code, by the subfields under
the tag. -/
theorem GetField_data_eq (r : Reader) (rec : marcRecord) (tag subfield : Str)
    (hcur : r.current = some rec) (htag : strLt tag (bytes "010") = false)
    (hsub : subfield ≠ []) :
    r.GetField tag subfield =
      match (subfieldsUnder rec tag).find? (fun sf => HasPrefix sf subfield) with
      | some sf => .done (sf.drop 1, true)
      | none => .done ([], false) := by
  cases hget : mapGet rec.fields tag with
  | none => simp [Reader.GetField, subfieldsUnder, fieldsUnder, hcur, hget]
  | some fld =>
    simp only [Reader.GetField, subfieldsUnder, fieldsUnder, hcur, hget, htag, hsub,
      if_false, Option.getD_some, Bool.false_eq_true]
    exact GetField_outer_eq subfield hsub fld

/-- `GetFields` on a data tag of a decoded record, by the subfields under
the tag. -/
theorem GetFields_data_eq (r : Reader) (rec : marcRecord) (tag subfield : Str)
    (hok : FieldsOK rec.fields)
    (hcur : r.current = some rec) (htag : strLt tag (bytes "010") = false) :
    r.GetFields tag subfield =
      .done (((subfieldsUnder rec tag).filter (fun sf => HasPrefix sf subfield)).map
          (fun sf => sf.drop 1),
        decide ((((subfieldsUnder rec tag).filter (fun sf => HasPrefix sf subfield)).map
          (fun sf => sf.drop 1)).length > 0)) := by
  cases hget : mapGet rec.fields tag with
  | none => simp [Reader.GetFields, subfieldsUnder, fieldsUnder, hcur, hget]
  | some fld =>
    have hne := FieldsOK_data_ne_nil rec.fields hok tag htag fld hget
    have hfilter : (fun sf => decide (subfield = []) || HasPrefix sf subfield)
        = (fun sf => HasPrefix sf subfield) := by
      funext sf
      by_cases hs : subfield = []
      · simp [hs, HasPrefix_nil]
      · simp [hs]
    simp only [Reader.GetFields, subfieldsUnder, fieldsUnder, hcur, hget, htag, if_false,
      Option.getD_some, Bool.false_eq_true,
      GetFields_outer_eq _ subfield fld hne, List.nil_append, hfilter]

/-- C17: on a reader whose current record `rec` was decoded by `parseRecord`,
for a data tag (not below "010") and a subfield code of exactly one byte `c`,
`GetField` and `GetFields` return what the variants `GetFieldExact` and
`GetFieldsExact` return, which select a subfield if and only if its first
byte equals `c`. -/
theorem GetField_GetFields_exact (data : Str) (rec : marcRecord) (r : Reader) (tag : Str)
    (c : Nat) (hdec : parseRecord data = .done (some rec, none))
    (hcur : r.current = some rec) (htag : strLt tag (bytes "010") = false) :
    r.GetField tag [c] = .done (GetFieldExact rec tag c) ∧
    r.GetFields tag [c] = .done (GetFieldsExact rec tag c) := by
  have hok := parseRecord_FieldsOK data rec hdec
  have hp : (fun sf => HasPrefix sf [c]) = (fun sf => decide (sf.head? = some c)) := by
    funext sf
    exact HasPrefix_single sf c
  refine ⟨?_, ?_⟩
  · rw [GetField_data_eq r rec tag [c] hcur htag (by simp), hp]
    unfold GetFieldExact
    cases (subfieldsUnder rec tag).find? (fun sf => decide (sf.head? = some c)) <;> rfl
  · rw [GetFields_data_eq r rec tag [c] hok hcur htag, hp]
    unfold GetFieldsExact
    congr 2
    simp only [List.length_map, gt_iff_lt, List.length_pos, ne_eq]

set_option maxRecDepth 100000 in
/-- Witness of C17: code "a" under tag "650" of the sample record. -/
theorem GetField_GetFields_exact_witness :
    Reader.GetField ⟨[], some sampleParsed, none⟩ (bytes "650") [0x61]
      = .done (GetFieldExact sampleParsed (bytes "650") 0x61) ∧
    Reader.GetFields ⟨[], some sampleParsed, none⟩ (bytes "650") [0x61]
      = .done (GetFieldsExact sampleParsed (bytes "650") 0x61) :=
  GetField_GetFields_exact sampleRecord sampleParsed ⟨[], some sampleParsed, none⟩
    (bytes "650") 0x61 (by decide) rfl (by decide)

/-! ## Slices out of range -/

/-- With a base address from 1 to 24 the directory slice `data[24 : base-1]`
is out of range. -/
theorem parseRecord_panics_of_low_base (data : Str) (b : Int) (hlen : 24 ≤ data.length)
    (hbase : Sscanf_d 5 ((data.drop 12).take 5) = some b)
    (hb1 : 0 < b) (hb25 : b < 25) (hb2 : b < (data.length : Int)) :
    parseRecord data = .panic := by
  obtain ⟨h1, h2⟩ := parseRecord_leader_slices data hlen
  have h3 : slice data 24 (b - 1) = .panic := slice_panic data 24 (b - 1) (by omega)
  have h4 : ¬ (b ≤ 0 ∨ b ≥ (data.length : Int)) := by omega
  simp only [parseRecord, h1, h2, hbase, h4, if_false, h3]

/-- On a record that passes the checks of `parseRecord`, with a base address
above 24, `parseRecord` returns a record when the payload span of every
directory entry is in range, and panics otherwise. -/
theorem parseRecord_returns_iff (data : Str) (b : Int) (hlen : 24 ≤ data.length)
    (hbase : Sscanf_d 5 ((data.drop 12).take 5) = some b)
    (hb1 : 24 < b) (hb2 : b < (data.length : Int))
    (hdir : (directoryOf data b).length % 12 = 0) :
    ((∀ e ∈ entriesOf data b, entrySpanOK data b e) →
      ∃ rec, parseRecord data = .done (some rec, none)) ∧
    ((¬ ∀ e ∈ entriesOf data b, entrySpanOK data b e) → parseRecord data = .panic) := by
  rw [parseRecord_eq_loop data b hlen hbase hb1 hb2 hdir]
  refine ⟨?_, ?_⟩
  · intro hspan
    obtain ⟨fields, hloop⟩ := parseLoop_returns data b (directoryOf data b) _ 0 []
      (by simpa [entriesOf] using hspan)
    rw [hloop]
    exact ⟨_, rfl⟩
  · intro hnot
    cases hloop : parseLoop data b (directoryOf data b) ((directoryOf data b).length / 12) 0 []
      with
    | panic => rfl
    | done fields =>
      exfalso
      apply hnot
      have := (parseLoop_done data b _ _ 0 [] fields hloop).1
      simpa [entriesOf] using this

set_option maxRecDepth 100000 in
/-- C18, the failing inputs: `zeroLengthRecord` (39 bytes, base address 37,
a directory of 12 bytes) passes every check of `parseRecord`, and the field
span `data[37:36]` of its entry, whose length field is "0000", is out of
range: `parseRecord` panics.  `lowBaseRecord` (24 bytes, base address 13)
passes the base address check, and the directory span `data[24:12]` is out of
range: `parseRecord` panics. -/
theorem parseRecord_slice_out_of_range :
    (24 ≤ zeroLengthRecord.length ∧
      Sscanf_d 5 ((zeroLengthRecord.drop 12).take 5) = some 37 ∧
      (37 : Int) < (zeroLengthRecord.length : Int) ∧
      (directoryOf zeroLengthRecord 37).length % 12 = 0 ∧
      parseRecord zeroLengthRecord = .panic) ∧
    (24 ≤ lowBaseRecord.length ∧
      Sscanf_d 5 ((lowBaseRecord.drop 12).take 5) = some 13 ∧
      (13 : Int) < (lowBaseRecord.length : Int) ∧
      parseRecord lowBaseRecord = .panic) := by
  decide

/-! ## Lookups that panic -/

/-- On a reader without a current record `GetField` returns not found. -/
theorem GetField_of_no_current (r : Reader) (h : r.current = none) (tag subfield : Str) :
    r.GetField tag subfield = .done ([], false) := by
  simp only [Reader.GetField, h]

/-- On a reader without a current record `GetFields` dereferences nil. -/
theorem GetFields_of_no_current (r : Reader) (h : r.current = none) (tag subfield : Str) :
    r.GetFields tag subfield = .panic := by
  simp only [Reader.GetFields, h]

set_option maxRecDepth 100000 in
/-- C19, the failing input: `twoFieldRecord` decodes to two fields tagged
"650", the first without a subfield; with the empty code `GetFields` reports
found with the list `["X"]`, and `GetField` panics (index out of range in
`fld[0].contents[0]`) where the claim has it report found with the value
"X". -/
theorem GetField_GetFields_disagree :
    parseRecord twoFieldRecord = .done (some twoFieldParsed, none) ∧
    Reader.GetFields ⟨[], some twoFieldParsed, none⟩ (bytes "650") []
      = .done ([bytes "X"], true) ∧
    Reader.GetField ⟨[], some twoFieldParsed, none⟩ (bytes "650") [] = .panic := by
  decide

set_option maxRecDepth 100000 in
/-- C20, the failing inputs: on a new reader, before any call of `Next`,
`GetField` returns not found and `GetFields` panics (nil dereference of
`r.current`); the same on the reader left by a call of `Next` whose decode
failed and set the current record to nil. -/
theorem GetFields_panics_without_current :
    ((NewReader sampleRecord).GetField (bytes "001") [] = .done ([], false) ∧
      (NewReader sampleRecord).GetFields (bytes "001") [] = .panic) ∧
    ∃ r, (NewReader badBaseRecord).Next = .done (false, r) ∧ r.current = none ∧
      r.GetField (bytes "001") [] = .done ([], false) ∧
      r.GetFields (bytes "001") [] = .panic :=
  ⟨by decide, ⟨[], none, some .invalidBase⟩, by decide, rfl, by decide, by decide⟩

/-- Away from the empty code on a data tag whose first field has no
subfield, `GetField` and `GetFields` agree on a decoded record: they report
the same found flag, and when found the value of `GetField` is the first
element of the list of `GetFields`. -/
theorem GetField_GetFields_agree (data : Str) (rec : marcRecord) (r : Reader)
    (tag subfield : Str) (hdec : parseRecord data = .done (some rec, none))
    (hcur : r.current = some rec)
    (hfirst : strLt tag (bytes "010") = false → subfield = [] →
      ∀ f0 rest, mapGet rec.fields tag = some (f0 :: rest) → f0.contents ≠ []) :
    ∃ v vs found, r.GetField tag subfield = .done (v, found) ∧
      r.GetFields tag subfield = .done (vs, found) ∧
      (found = true → vs.head? = some v) := by
  have hok := parseRecord_FieldsOK data rec hdec
  cases hget : mapGet rec.fields tag with
  | none =>
    exact ⟨[], [], false, by simp [Reader.GetField, hcur, hget],
      by simp [Reader.GetFields, hcur, hget], by simp⟩
  | some fld =>
    cases fld with
    | nil => exact absurd rfl (hok tag [] hget).1
    | cons f0 rest =>
      by_cases htag : strLt tag (bytes "010") = true
      · obtain ⟨p, hp⟩ := FieldsOK_control rec.fields hok tag htag _ hget f0
          (List.mem_cons_self _ _)
        exact ⟨p, [p], true, by simp [Reader.GetField, hcur, hget, htag, hp],
          by simp [Reader.GetFields, hcur, hget, htag, hp], by simp⟩
      · have htag2 : strLt tag (bytes "010") = false := by simpa using htag
        have hne := FieldsOK_data_ne_nil rec.fields hok tag htag2 _ hget
        by_cases hsub : subfield = []
        · subst hsub
          cases hc : f0.contents with
          | nil => exact absurd hc (hfirst htag2 rfl f0 rest hget)
          | cons c0 cs =>
            have hc0 : c0 ≠ [] := hne f0 (List.mem_cons_self _ _) c0
              (by rw [hc]; exact List.mem_cons_self _ _)
            have hsubs : subfieldsUnder rec tag
                = c0 :: (cs ++ rest.flatMap (fun fl => fl.contents)) := by
              simp [subfieldsUnder, fieldsUnder, hget, hc]
            refine ⟨c0.drop 1,
              ((subfieldsUnder rec tag).filter (fun sf => HasPrefix sf [])).map
                (fun sf => sf.drop 1), true, ?_, ?_, ?_⟩
            · simp only [Reader.GetField, hcur, hget, htag2, hc, if_true, if_false,
                Bool.false_eq_true, sliceFrom1_of_ne_nil c0 hc0]
            · rw [GetFields_data_eq r rec tag [] hok hcur htag2]
              simp [hsubs, HasPrefix_nil, List.filter_cons]
            · intro _
              simp [hsubs, HasPrefix_nil, List.filter_cons]
        · rw [GetField_data_eq r rec tag subfield hcur htag2 hsub,
            GetFields_data_eq r rec tag subfield hok hcur htag2]
          cases hfil : (subfieldsUnder rec tag).filter (fun sf => HasPrefix sf subfield) with
          | nil =>
            have hnone : (subfieldsUnder rec tag).find? (fun sf => HasPrefix sf subfield)
                = none := by
              rw [List.find?_eq_none]
              intro x hx hpx
              have : x ∈ (subfieldsUnder rec tag).filter (fun sf => HasPrefix sf subfield) :=
                List.mem_filter.2 ⟨hx, hpx⟩
              rw [hfil] at this
              simp at this
            rw [hnone]
            exact ⟨[], [], false, rfl, by simp, by simp⟩
          | cons a as =>
            rw [find?_of_filter_eq_cons _ _ a as hfil]
            exact ⟨a.drop 1, (a :: as).map (fun sf => sf.drop 1), true, rfl, by simp, by simp⟩

end Gomarc
